import Mathlib

/-!
# News-Feed: array-backed binary min-heaps

A shallow embedding of `PQHeap.h` (generic binary min-heap) and of
`NewsFeed.cpp` (keyed min-heap with an identity-to-position index), followed by
the properties established about them.

Modelling conventions.

* A raw C++ array `T *heap` is a total map `Nat → T` (flat memory); the length
  of the buffer it points to is kept next to it in the field `alloc`, so that
  bounds can be stated separately from the functional behaviour. The functions
  `enqueueChecked` embed `enqueue` a second time, with every array access
  checked against `alloc` and with the reference parameter of
  `PQHeap::enqueue` made explicit; a call that leaves the buffer or reads a
  deleted referent is undefined behaviour, and where the checked call returns,
  the unchecked one returns the same state.
* `new T[len]` yields default-constructed slots, written `default`.
* `size_t` indices are natural numbers: every index the code computes is at
  most `2 * n + 1`, far from the wrap-around of a 64-bit `size_t`.
* A `throw` is the `error` branch of `Except`; for a non-`const` method the
  error carries the exception together with the object as the method left it.
* Every `while` loop is a structurally recursive function on a fuel argument;
  the wrappers pass enough fuel, and the unfolding lemmas below show that the
  loop body equation of the source holds for the wrappers.
-/

set_option autoImplicit false

/-- The C++ exception thrown by the containers, `std::invalid_argument`. -/
inductive Exn where
  | invalid_argument (msg : String)
deriving DecidableEq, Repr

/-- An exception leaving a method, together with the object as the method left
it: C++ does not undo the writes made before a `throw`. -/
structure Thrown (σ : Type) where
  exn : Exn
  state : σ

/-! ## `PQHeap.h` -/

/-- State of a `PQHeap<T>`: the members `heap`, `n`, `capacity`, and the
length `alloc` of the buffer `heap` points to (`0` for `nullptr`). -/
structure PQHeap (α : Type) where
  heap : Nat → α
  n : Nat
  capacity : Nat
  alloc : Nat

namespace PQHeap

variable {α : Type}

/-- The root index, `root()`. -/
def root : Nat := 1

/-- Index of the parent, `parent(child)`. -/
def parent (child : Nat) : Nat := child / 2

/-- Index of the left child, `left(p)`. -/
def left (p : Nat) : Nat := p * 2

/-- Index of the right child, `right(p)`. -/
def right (p : Nat) : Nat := left p + 1

/-- The default constructor `PQHeap()`: null buffer, `n = 0`, `capacity = 0`. -/
def new [Inhabited α] : PQHeap α :=
  { heap := fun _ => default, n := 0, capacity := 0, alloc := 0 }

/-- The accessor `value(i)`, i.e. `heap[i]`. -/
def value (h : PQHeap α) (i : Nat) : α := h.heap i

/-- The method `swap(i, j)`: `std::swap(heap[i], heap[j])`. -/
def swap (h : PQHeap α) (i j : Nat) : PQHeap α :=
  { h with heap := fun k => if k = i then h.heap j else if k = j then h.heap i else h.heap k }

/-- The test `valid(i)`: `i <= n && i >= root()`. -/
def valid (h : PQHeap α) (i : Nat) : Bool := decide (i ≤ h.n) && decide (i ≥ root)

/-- The test `is_root(i)`: `i == root()`. -/
def is_root (i : Nat) : Bool := i == root

/-- The test `is_leaf(i)`: `!valid(left(i))`. -/
def is_leaf (h : PQHeap α) (i : Nat) : Bool := !h.valid (left i)

/-- The test `has_right(p)`: `valid(right(p))`. -/
def has_right (h : PQHeap α) (p : Nat) : Bool := h.valid (right p)

/-- The loop of `bubble(child)`, with a fuel argument. -/
def bubbleLoop [LinearOrder α] : Nat → PQHeap α → Nat → PQHeap α
  | 0, h, _ => h
  | fuel + 1, h, child =>
    if !is_root child && decide (h.value child < h.value (parent child)) then
      bubbleLoop fuel (h.swap child (parent child)) (parent child)
    else h

/-- The method `bubble(child)`; `child` halves at each iteration, so `child`
units of fuel are enough. -/
def bubble [LinearOrder α] (h : PQHeap α) (child : Nat) : PQHeap α :=
  bubbleLoop child h child

/-- The child `percolate` compares `p` with: the right one when it exists and
is strictly smaller than the left one, the left one otherwise. -/
def smallerChild [LinearOrder α] (h : PQHeap α) (p : Nat) : Nat :=
  if h.has_right p && decide (h.value (right p) < h.value (left p)) then right p else left p

/-- The loop of `percolate(p)`, with a fuel argument. -/
def percolateLoop [LinearOrder α] : Nat → PQHeap α → Nat → PQHeap α
  | 0, h, _ => h
  | fuel + 1, h, p =>
    if !h.is_leaf p then
      if h.value p ≤ h.value (h.smallerChild p) then h
      else percolateLoop fuel (h.swap (h.smallerChild p) p) (h.smallerChild p)
    else h

/-- The method `percolate(p)`; `p` at least doubles at each iteration and stays
at most `n`, so `n` units of fuel are enough. -/
def percolate [LinearOrder α] (h : PQHeap α) (p : Nat) : PQHeap α :=
  percolateLoop h.n h p

/-- The method `resize()`: a fresh buffer of `2*capacity + 17 + 1` slots into
which slots `1..n` are copied. -/
def resize [Inhabited α] (h : PQHeap α) : PQHeap α :=
  { heap := fun i => if 1 ≤ i ∧ i ≤ h.n then h.heap i else default,
    n := h.n,
    capacity := 2 * h.capacity + 17,
    alloc := 2 * h.capacity + 17 + 1 }

/-- The statement `if (n == capacity) resize();` of `enqueue`. -/
def grow [Inhabited α] (h : PQHeap α) : PQHeap α := if h.n = h.capacity then h.resize else h

/-- The statement `heap[++n] = datum;` of `enqueue`. -/
def push (h : PQHeap α) (datum : α) : PQHeap α :=
  { h with heap := fun k => if k = h.n + 1 then datum else h.heap k, n := h.n + 1 }

/-- The method `enqueue(datum)`. -/
def enqueue [LinearOrder α] [Inhabited α] (h : PQHeap α) (datum : α) : PQHeap α :=
  let h' := h.grow.push datum
  h'.bubble h'.n

/-- The method `empty()`. -/
def empty (h : PQHeap α) : Bool := h.n == 0

/-- The method `peek()`. -/
def peek (h : PQHeap α) : Except Exn α :=
  if h.empty then .error (.invalid_argument "peek in empty heap")
  else .ok (h.heap root)

/-- The method `dequeue()`: `swap(root(), n--); percolate(root())`. -/
def dequeue [LinearOrder α] (h : PQHeap α) : Except (Thrown (PQHeap α)) (PQHeap α) :=
  if h.empty then .error ⟨.invalid_argument "dequeue from empty heap", h⟩
  else
    let h1 := { h.swap root h.n with n := h.n - 1 }
    .ok (h1.percolate root)

/-- The loop `for (i = n/2; i >= root(); i--) percolate(i)` of the bulk
constructor, counting `i` down from its argument. -/
def heapifyLoop [LinearOrder α] : Nat → PQHeap α → PQHeap α
  | 0, h => h
  | i + 1, h => heapifyLoop i (h.percolate (i + 1))

/-- The constructor `PQHeap(const List<T>& list)`: the copy loop runs `i` from
`list.size()-1` down to `0` and stores `list.get(i)` in `heap[i]`. -/
def ofList [LinearOrder α] [Inhabited α] (list : List α) : PQHeap α :=
  let h : PQHeap α :=
    { heap := fun i => if i < list.length then list.getD i default else default,
      n := list.length,
      capacity := list.length,
      alloc := list.length + 1 }
  heapifyLoop (h.n / 2) h

/-- Enqueue the elements of a list one at a time, first element first. -/
def enqueueAll [LinearOrder α] [Inhabited α] (h : PQHeap α) (xs : List α) : PQHeap α :=
  xs.foldl enqueue h

/-- The client loop `while (!q.empty()) { out.push_back(q.peek()); q.dequeue(); }`
with a fuel argument. -/
def drainLoop [LinearOrder α] : Nat → PQHeap α → List α
  | 0, _ => []
  | fuel + 1, h =>
    if h.empty then []
    else
      match h.peek, h.dequeue with
      | .ok x, .ok h' => x :: drainLoop fuel h'
      | _, _ => []

/-- Drain the queue; each `dequeue` lowers `n` by one, so `n` units of fuel
are enough. -/
def drain [LinearOrder α] (h : PQHeap α) : List α := drainLoop h.n h

/-- The elements in slots `1..n`, as a list. -/
def elems (h : PQHeap α) : List α := (List.range' 1 h.n).map h.heap

/-- The min-heap property on slots `1..n`. -/
def HeapOrdered [LinearOrder α] (h : PQHeap α) : Prop :=
  ∀ i, 2 ≤ i → i ≤ h.n → h.heap (i / 2) ≤ h.heap i

/-- An ordered three-element heap of integers. -/
def sample : PQHeap Int :=
  { heap := fun i => if i = 1 then 1 else if i = 2 then 5 else if i = 3 then 2 else 0,
    n := 3, capacity := 17, alloc := 18 }

/-- Heap order on the edges whose parent index is at least `k`. -/
def OrderedFrom [LinearOrder α] (k : Nat) (h : PQHeap α) : Prop :=
  ∀ i, 2 ≤ i → i ≤ h.n → k ≤ i / 2 → h.heap (i / 2) ≤ h.heap i

/-- Loop invariant of `bubble`: heap order holds on every edge except the one
from `c` up to its parent, and the children of `c` are above its parent. -/
def BubbleInv [LinearOrder α] (h : PQHeap α) (c : Nat) : Prop :=
  1 ≤ c ∧ c ≤ h.n ∧
  (∀ i, 2 ≤ i → i ≤ h.n → i ≠ c → h.heap (i / 2) ≤ h.heap i) ∧
  (∀ i, 2 ≤ i → i ≤ h.n → i / 2 = c → 2 ≤ c → h.heap (c / 2) ≤ h.heap i)

/-- Loop invariant of `percolate`, for the edges whose parent index is at least
`k`: heap order holds on each of them except those from `p` down to its
children, and the children of `p` are above its parent. -/
def PercInv [LinearOrder α] (k : Nat) (h : PQHeap α) (p : Nat) : Prop :=
  1 ≤ k ∧ k ≤ p ∧
  (∀ i, 2 ≤ i → i ≤ h.n → k ≤ i / 2 → i / 2 ≠ p → h.heap (i / 2) ≤ h.heap i) ∧
  (∀ i, 2 ≤ i → i ≤ h.n → i / 2 = p → k ≤ p / 2 → h.heap (p / 2) ≤ h.heap i)

end PQHeap

/-! ## The associative-map collaborator -/

/-- Modelled from the spec: the class template `DictHash` of `DictHash.h`,
which is not among the sources. The spec describes it as a map over unique keys
with `add(key, value)` (insert or overwrite), `get(key)` (the value, under the
precondition that the key is present), `has(key)` (membership) and iteration in
insertion order. The model is the list of (key, value) pairs in insertion
order. -/
structure DictHash (K V : Type) where
  entries : List (K × V)
deriving DecidableEq, Repr

namespace DictHash

variable {K V : Type} [DecidableEq K]

/-- Search of a key in the list of pairs. -/
def lookup : List (K × V) → K → Option V
  | [], _ => none
  | (a, b) :: rest, k => if a = k then some b else lookup rest k

/-- Overwrite the value of a key in place, or append the pair when the key is
absent. -/
def insert : List (K × V) → K → V → List (K × V)
  | [], k, v => [(k, v)]
  | (a, b) :: rest, k, v => if a = k then (a, v) :: rest else (a, b) :: insert rest k v

/-- Modelled from the spec: the default constructor of `DictHash`, an empty map. -/
def new : DictHash K V := { entries := [] }

/-- Modelled from the spec: `has(key)`, membership test. -/
def has (d : DictHash K V) (k : K) : Bool := (lookup d.entries k).isSome

/-- Modelled from the spec: `add(key, value)`, insert or overwrite. -/
def add (d : DictHash K V) (k : K) (v : V) : DictHash K V :=
  { entries := insert d.entries k v }

/-- Modelled from the spec: `get(key)`, the value of a present key. The spec
leaves the absent key outside the contract; the model returns `default`
there. -/
def get [Inhabited V] (d : DictHash K V) (k : K) : V := (lookup d.entries k).getD default

end DictHash

/-! ## `NewsFeed.h`, `NewsFeed.cpp` -/

/-- The typedef `NewsFeed::Headline`, `std::string`. -/
abbrev Headline := String

/-- The typedef `NewsFeed::Story`, `std::string`. -/
abbrev Story := String

/-- The typedef `NewsFeed::Staleness`, `int`; only compared, never computed
with. -/
abbrev Staleness := Int

/-- The typedef `NewsFeed::HeapLocation`, `size_t`. -/
abbrev HeapLocation := Nat

/-- State of a `NewsFeed`: the three dictionaries, the members `heap`, `n`,
`capacity`, and the length `alloc` of the buffer `heap` points to. -/
structure NewsFeed where
  stories : DictHash Headline Story
  staleness : DictHash Headline Staleness
  locations : DictHash Headline HeapLocation
  heap : Nat → Headline
  n : Nat
  capacity : Nat
  alloc : Nat

namespace NewsFeed

/-- The root index, `root()`. -/
def root : Nat := 1

/-- Index of the parent, `parent(child)`. -/
def parent (child : Nat) : Nat := child / 2

/-- Index of the left child, `left(p)`. -/
def left (p : Nat) : Nat := p * 2

/-- Index of the right child, `right(p)`. -/
def right (p : Nat) : Nat := left p + 1

/-- The constructor `NewsFeed()`: `capacity(10)` and `heap = new Headline[capacity]`. -/
def new : NewsFeed :=
  { stories := DictHash.new, staleness := DictHash.new, locations := DictHash.new,
    heap := fun _ => default, n := 0, capacity := 10, alloc := 10 }

/-- The method `weight(headline)`: `staleness.get(headline)`. -/
def weight (s : NewsFeed) (headline : Headline) : Staleness := s.staleness.get headline

/-- The method `get(headline)`: `stories.get(headline)`. -/
def get (s : NewsFeed) (headline : Headline) : Story := s.stories.get headline

/-- The accessor `value(i)`: `weight(heap[i])`. -/
def value (s : NewsFeed) (i : Nat) : Staleness := s.weight (s.heap i)

/-- The method `swap(i, j)`: `std::swap(heap[i], heap[j])`, then
`locations.add(heap[i], i); locations.add(heap[j], j)`. -/
def swap (s : NewsFeed) (i j : Nat) : NewsFeed :=
  let heap' : Nat → Headline :=
    fun k => if k = i then s.heap j else if k = j then s.heap i else s.heap k
  { s with heap := heap', locations := (s.locations.add (heap' i) i).add (heap' j) j }

/-- The test `valid(i)`: `i > 0 && i <= n`. -/
def valid (s : NewsFeed) (i : Nat) : Bool := decide (i > 0) && decide (i ≤ s.n)

/-- The test `is_root(i)`: `!valid(parent(i))`. -/
def is_root (s : NewsFeed) (i : Nat) : Bool := !s.valid (parent i)

/-- The test `is_leaf(i)`: `!valid(left(i))`. -/
def is_leaf (s : NewsFeed) (i : Nat) : Bool := !s.valid (left i)

/-- The test `has_right(p)`: `valid(right(p))`. -/
def has_right (s : NewsFeed) (p : Nat) : Bool := s.valid (right p)

/-- The loop of `bubble(child)`, with a fuel argument. -/
def bubbleLoop : Nat → NewsFeed → Nat → NewsFeed
  | 0, s, _ => s
  | fuel + 1, s, child =>
    if !s.is_root child && decide (s.value child < s.value (parent child)) then
      bubbleLoop fuel (s.swap child (parent child)) (parent child)
    else s

/-- The method `bubble(child)`; `child` halves at each iteration, so `child`
units of fuel are enough. -/
def bubble (s : NewsFeed) (child : Nat) : NewsFeed := bubbleLoop child s child

/-- The child `percolate` compares `p` with: the right one when it exists and
weighs strictly less than the left one, the left one otherwise. -/
def smallerChild (s : NewsFeed) (p : Nat) : Nat :=
  if s.has_right p && decide (s.value (right p) < s.value (left p)) then right p else left p

/-- The loop of `percolate(p)`, with a fuel argument. -/
def percolateLoop : Nat → NewsFeed → Nat → NewsFeed
  | 0, s, _ => s
  | fuel + 1, s, p =>
    if !s.is_leaf p then
      if s.value p ≤ s.value (s.smallerChild p) then s
      else percolateLoop fuel (s.swap (s.smallerChild p) p) (s.smallerChild p)
    else s

/-- The method `percolate(p)`; `p` at least doubles at each iteration and stays
at most `n`, so `n` units of fuel are enough. -/
def percolate (s : NewsFeed) (p : Nat) : NewsFeed := percolateLoop s.n s p

/-- The method `resize()`: a fresh buffer of `2*capacity + 17 + 1` slots into
which slots `1..n` are copied. -/
def resize (s : NewsFeed) : NewsFeed :=
  { s with
    heap := fun i => if 1 ≤ i ∧ i ≤ s.n then s.heap i else default,
    capacity := 2 * s.capacity + 17,
    alloc := 2 * s.capacity + 17 + 1 }

/-- The method `empty()`. -/
def empty (s : NewsFeed) : Bool := s.n == 0

/-- The method `peek()`: `heap[root()]`, without a guard. -/
def peek (s : NewsFeed) : Headline := s.heap root

/-- The statements `stories.add(headline, story); staleness.add(headline, stale);`
of `enqueue`. -/
def record (s : NewsFeed) (headline : Headline) (story : Story) (stale : Staleness) :
    NewsFeed :=
  { s with stories := s.stories.add headline story,
           staleness := s.staleness.add headline stale }

/-- The statement `if (n == capacity) resize();` of `enqueue`. -/
def grow (s : NewsFeed) : NewsFeed := if s.n = s.capacity then s.resize else s

/-- The statements `heap[++n] = headline; locations.add(headline, n);` of
`enqueue`. -/
def append (s : NewsFeed) (headline : Headline) : NewsFeed :=
  { s with heap := fun k => if k = s.n + 1 then headline else s.heap k,
           n := s.n + 1,
           locations := s.locations.add headline (s.n + 1) }

/-- The method `enqueue(headline, story, stale)`. -/
def enqueue (s : NewsFeed) (headline : Headline) (story : Story) (stale : Staleness) :
    Except (Thrown NewsFeed) NewsFeed :=
  if s.stories.has headline then .error ⟨.invalid_argument "Headline already in use", s⟩
  else
    let s' := ((s.record headline story stale).grow).append headline
    .ok (s'.bubble s'.n)

/-- The method `dequeue()`: `swap(root(), n--); percolate(root())`. -/
def dequeue (s : NewsFeed) : Except (Thrown NewsFeed) NewsFeed :=
  if s.empty then .error ⟨.invalid_argument "dequeue from empty heap", s⟩
  else
    let s1 := { s.swap root s.n with n := s.n - 1 }
    .ok (s1.percolate root)

/-- The method `reweight(headline, stale)`. -/
def reweight (s : NewsFeed) (headline : Headline) (stale : Staleness) : NewsFeed :=
  let w := s.weight headline
  let s1 := { s with staleness := s.staleness.add headline stale }
  if stale < w then s1.bubble (s1.locations.get headline)
  else if w < stale then s1.percolate (s1.locations.get headline)
  else s1

/-- Enqueue a list of (headline, story, staleness) triples one at a time, first
triple first; the first failing call ends the run with its error. -/
def enqueueAll :
    NewsFeed → List (Headline × Story × Staleness) → Except (Thrown NewsFeed) NewsFeed
  | s, [] => .ok s
  | s, (h, st, w) :: rest =>
    match s.enqueue h st w with
    | .ok s' => enqueueAll s' rest
    | .error e => .error e

/-- The client loop `while (!q.empty()) { out.push_back(q.peek()); q.dequeue(); }`
with a fuel argument. -/
def drainLoop : Nat → NewsFeed → List Headline
  | 0, _ => []
  | fuel + 1, s =>
    if s.empty then []
    else
      match s.dequeue with
      | .ok s' => s.peek :: drainLoop fuel s'
      | .error _ => []

/-- Drain the queue; each `dequeue` lowers `n` by one, so `n` units of fuel
are enough. -/
def drain (s : NewsFeed) : List Headline := drainLoop s.n s

/-- The headlines in slots `1..n`, as a list. -/
def keys (s : NewsFeed) : List Headline := (List.range' 1 s.n).map s.heap

/-- A headline is in the queue when it sits in one of the slots `1..n`. -/
def InQueue (s : NewsFeed) (k : Headline) : Prop := ∃ i, 1 ≤ i ∧ i ≤ s.n ∧ s.heap i = k

/-- The min-heap property on the weights of slots `1..n`. -/
def HeapOrdered (s : NewsFeed) : Prop :=
  ∀ i, 2 ≤ i → i ≤ s.n → s.weight (s.heap (i / 2)) ≤ s.weight (s.heap i)

/-- The position index is exact: the headlines of slots `1..n` are pairwise
distinct and `locations` maps each one to its slot. -/
def PositionIndexed (s : NewsFeed) : Prop :=
  (∀ i j, 1 ≤ i → i ≤ s.n → 1 ≤ j → j ≤ s.n → s.heap i = s.heap j → i = j) ∧
  (∀ i, 1 ≤ i → i ≤ s.n → s.locations.get (s.heap i) = i)

/-- States reached from a freshly constructed feed by successful `enqueue` and
`dequeue` calls and by `reweight` calls on headlines currently in the queue. -/
inductive Reachable : NewsFeed → Prop where
  | new : Reachable NewsFeed.new
  | enqueue (s s' : NewsFeed) (headline : Headline) (story : Story) (stale : Staleness) :
      Reachable s → s.enqueue headline story stale = .ok s' → Reachable s'
  | dequeue (s s' : NewsFeed) : Reachable s → s.dequeue = .ok s' → Reachable s'
  | reweight (s : NewsFeed) (headline : Headline) (stale : Staleness) :
      Reachable s → InQueue s headline → Reachable (s.reweight headline stale)

/-- The priorities seen through the headlines: the `PQHeap<int>` whose slot `i`
holds `weight(heap[i])`. -/
def abs (s : NewsFeed) : PQHeap Int :=
  { heap := fun i => s.weight (s.heap i), n := s.n, capacity := s.capacity, alloc := s.alloc }

/-- States obtained from a state by a finite number of `swap` calls on occupied
slots. -/
inductive Shuffled : NewsFeed → NewsFeed → Prop where
  | refl (s : NewsFeed) : Shuffled s s
  | swap (s t : NewsFeed) (i j : Nat) : 1 ≤ i → i ≤ s.n → 1 ≤ j → j ≤ s.n →
      Shuffled (s.swap i j) t → Shuffled s t

/-- The representation invariant: heap order, exact position index, and every
queued headline has a story. -/
def Inv (s : NewsFeed) : Prop :=
  HeapOrdered s ∧ PositionIndexed s ∧ ∀ k, InQueue s k → s.stories.has k = true

/-- The feed after `enqueue("A", "a", 10); enqueue("B", "b", 20);
enqueue("C", "c", 30)` on a fresh feed. -/
def abc : NewsFeed :=
  match enqueueAll NewsFeed.new [("A", "a", 10), ("B", "b", 20), ("C", "c", 30)] with
  | .ok s => s
  | .error t => t.state

/-- Five stories with the staleness values 5, 1, 4, 2, 3. -/
def five : List (Headline × Story × Staleness) :=
  [("a", "s1", 5), ("b", "s2", 1), ("c", "s3", 4), ("d", "s4", 2), ("e", "s5", 3)]

/-- The feed after enqueuing the five stories into a fresh feed. -/
def fiveFeed : NewsFeed :=
  match enqueueAll NewsFeed.new five with
  | .ok s => s
  | .error t => t.state

end NewsFeed

namespace PQHeap

variable {α : Type}

/-- The method `peek()` as a call on the object: the exception or the result,
together with the object as the method left it; the body writes no member. -/
def peekCall (h : PQHeap α) : Except (Thrown (PQHeap α)) (α × PQHeap α) :=
  if h.empty then .error ⟨.invalid_argument "peek in empty heap", h⟩
  else .ok (h.heap root, h)

/-- The copy assignment `operator=(const PQHeap<T>& other)` on an object
distinct from `other`: `n = other.n; capacity = other.capacity;
heap = new T[capacity];` followed by the copy of slots `root()..n`. -/
def assign [Inhabited α] (other : PQHeap α) : PQHeap α :=
  { heap := fun i => if 1 ≤ i ∧ i ≤ other.n then other.heap i else default,
    n := other.n,
    capacity := other.capacity,
    alloc := other.capacity }

/-- The indices written in the new buffer by the copy loop
`for (i = root(); i <= n; i++) heap[i] = other.heap[i]` of `operator=`. -/
def assignWrites (other : PQHeap α) : List Nat := List.range' 1 other.n

/-- Two states hold the same queue: the same `n` and the same element in each
of the slots `1..n`. -/
def SameQueue (a b : PQHeap α) : Prop :=
  a.n = b.n ∧ ∀ i, 1 ≤ i → i ≤ a.n → a.heap i = b.heap i

end PQHeap

namespace NewsFeed

/-- The object after a call: the new state when the call returns, the state
carried by the exception when it throws. -/
def after (r : Except (Thrown NewsFeed) NewsFeed) : NewsFeed :=
  match r with
  | .ok s => s
  | .error t => t.state

/-- States reached from a given state by successful `enqueue` and `dequeue`
calls and by `reweight` calls on headlines currently in the queue. -/
inductive Steps : NewsFeed → NewsFeed → Prop where
  | refl (s : NewsFeed) : Steps s s
  | enqueue (s t t' : NewsFeed) (headline : Headline) (story : Story) (stale : Staleness) :
      Steps s t → t.enqueue headline story stale = .ok t' → Steps s t'
  | dequeue (s t t' : NewsFeed) : Steps s t → t.dequeue = .ok t' → Steps s t'
  | reweight (s t : NewsFeed) (headline : Headline) (stale : Staleness) :
      Steps s t → InQueue t headline → Steps s (t.reweight headline stale)

/-- The indices read in the old buffer by the copy loop
`for (i = 1; i <= n; i++) heap[i] = oldheap[i]` of `resize()`. -/
def resizeReads (s : NewsFeed) : List Nat := List.range' 1 s.n

/-- The array accesses of a call of `enqueue` in state `s` stay inside the
buffers: when `resize()` runs, every index it reads lies in the old buffer, and
the index `n + 1` written by `heap[++n] = headline` lies in the buffer in use
after `if (n == capacity) resize();`. The statements before them change
neither `n`, `capacity` nor the buffer. -/
def EnqueueInBounds (s : NewsFeed) : Prop :=
  (s.n = s.capacity → ∀ i ∈ resizeReads s, i < s.alloc) ∧ s.n + 1 < s.grow.alloc

/-- Nine stories with pairwise distinct headlines. -/
def nineStories : List (Headline × Story × Staleness) :=
  [("h1", "", 1), ("h2", "", 2), ("h3", "", 3), ("h4", "", 4), ("h5", "", 5),
   ("h6", "", 6), ("h7", "", 7), ("h8", "", 8), ("h9", "", 9)]

/-- The feed after enqueuing the nine stories into a fresh feed. -/
def nine : NewsFeed := after (enqueueAll NewsFeed.new nineStories)

/-- The feed after `enqueue("A", "a", 10); dequeue()` on a fresh feed. -/
def drained : NewsFeed := after ((after (NewsFeed.new.enqueue "A" "a" 10)).dequeue)

/-- The feed after `enqueue("A", "a", 10); enqueue("B", "b", 20); dequeue()` on
a fresh feed. -/
def abDequeued : NewsFeed :=
  after ((after (enqueueAll NewsFeed.new [("A", "a", 10), ("B", "b", 20)])).dequeue)

end NewsFeed

/-! ## Calls with the array accesses checked -/

/-- Undefined behaviour of a call: an array access at `index` in a buffer of
`length` slots, or a read through a reference whose referent was deleted. -/
inductive Undefined where
  | out_of_bounds (index length : Nat)
  | dangling_reference
deriving DecidableEq, Repr

/-- The ways a call can fail to return: a thrown exception, or undefined
behaviour. -/
inductive Failure (σ : Type) where
  | thrown (t : Thrown σ)
  | undefined (u : Undefined)

namespace PQHeap

variable {α : Type}

/-- What the parameter `const T& datum` of `enqueue` is bound to: an object
outside the buffer of the queue, or slot `i` of the buffer of the queue itself,
as in `q.enqueue(q.peek())`. -/
inductive Datum (α : Type) where
  | object (v : α)
  | slot (i : Nat)

/-- The value of the referent of `datum` when `enqueue` is entered. -/
def datum (h : PQHeap α) (d : Datum α) : α :=
  match d with
  | .object v => v
  | .slot i => h.heap i

/-- The indices read in the old buffer by the copy loop
`for (i = 1; i <= n; i++) heap[i] = oldheap[i]` of `resize()`. -/
def resizeReads (h : PQHeap α) : List Nat := List.range' 1 h.n

/-- The method `enqueue(const T& datum)` with its array accesses checked
against the length of the buffer they go to. `resize()` reads slots `1..n` of
the old buffer and deletes it, so that a `datum` bound to one of its slots
dangles afterwards; `heap[++n] = datum` reads `datum` and writes slot `n + 1`
of the buffer then in use; `bubble(n)` touches slots `1..n` only. -/
def enqueueChecked [LinearOrder α] [Inhabited α] (h : PQHeap α) (d : Datum α) :
    Except Undefined (PQHeap α) :=
  if h.n = h.capacity ∧ ¬ (∀ i ∈ h.resizeReads, i < h.alloc) then
    .error (.out_of_bounds h.n h.alloc)
  else
    match d with
    | .object v =>
      if h.grow.n + 1 < h.grow.alloc then
        let h' := h.grow.push v
        .ok (h'.bubble h'.n)
      else .error (.out_of_bounds (h.grow.n + 1) h.grow.alloc)
    | .slot i =>
      if h.n = h.capacity then .error .dangling_reference
      else if ¬ i < h.grow.alloc then .error (.out_of_bounds i h.grow.alloc)
      else if h.grow.n + 1 < h.grow.alloc then
        let h' := h.grow.push (h.grow.heap i)
        .ok (h'.bubble h'.n)
      else .error (.out_of_bounds (h.grow.n + 1) h.grow.alloc)

/-- A default-constructed queue of integers after sixteen `enqueue` calls. -/
def sixteen : PQHeap Int :=
  enqueueAll PQHeap.new [1, 2, 3, 4, 5, 6, 7, 8, 9, 10, 11, 12, 13, 14, 15, 16]

/-- A default-constructed queue of integers after seventeen `enqueue` calls. -/
def seventeen : PQHeap Int :=
  enqueueAll PQHeap.new [1, 2, 3, 4, 5, 6, 7, 8, 9, 10, 11, 12, 13, 14, 15, 16, 17]

end PQHeap

namespace NewsFeed

/-- The method `enqueue(headline, story, stale)` with its array accesses
checked against the length of the buffer they go to. The arguments are passed
by value. `resize()` reads slots `1..n` of the old buffer;
`heap[++n] = headline` writes slot `n + 1` of the buffer then in use;
`bubble(n)` touches slots `1..n` only. -/
def enqueueChecked (s : NewsFeed) (headline : Headline) (story : Story) (stale : Staleness) :
    Except (Failure NewsFeed) NewsFeed :=
  if s.stories.has headline then
    .error (.thrown ⟨.invalid_argument "Headline already in use", s⟩)
  else if s.n = s.capacity ∧ ¬ (∀ i ∈ s.resizeReads, i < s.alloc) then
    .error (.undefined (.out_of_bounds s.n s.alloc))
  else if (s.record headline story stale).grow.n + 1 < (s.record headline story stale).grow.alloc
  then
    let s' := ((s.record headline story stale).grow).append headline
    .ok (s'.bubble s'.n)
  else
    .error (.undefined (.out_of_bounds ((s.record headline story stale).grow.n + 1)
      (s.record headline story stale).grow.alloc))

/-- Enqueue a list of triples one at a time with checked array accesses, first
triple first; the first failing call ends the run with its failure. -/
def enqueueAllChecked :
    NewsFeed → List (Headline × Story × Staleness) → Except (Failure NewsFeed) NewsFeed
  | s, [] => .ok s
  | s, (h, st, w) :: rest =>
    match s.enqueueChecked h st w with
    | .ok s' => enqueueAllChecked s' rest
    | .error e => .error e

/-- Ten stories with pairwise distinct headlines: the nine stories and one
more. -/
def tenStories : List (Headline × Story × Staleness) := nineStories ++ [("h10", "", 10)]

/-- A default-constructed `PQHeap<int>` after the nine calls `enqueue(1)`, ...,
`enqueue(9)`: the priorities of the nine stories. -/
def ninePriorities : PQHeap Int := PQHeap.enqueueAll PQHeap.new [1, 2, 3, 4, 5, 6, 7, 8, 9]

end NewsFeed

/-! # Properties -/

namespace PQHeap

variable {α : Type}

theorem swap_n (h : PQHeap α) (i j : Nat) : (h.swap i j).n = h.n := rfl

theorem swap_heap_left (h : PQHeap α) (i j : Nat) : (h.swap i j).heap i = h.heap j := by
  simp [swap]

theorem swap_heap_right (h : PQHeap α) (i j : Nat) : (h.swap i j).heap j = h.heap i := by
  by_cases hij : j = i
  · subst hij; simp [swap]
  · simp [swap, hij]

theorem swap_heap_other (h : PQHeap α) (i j k : Nat) (hi : k ≠ i) (hj : k ≠ j) :
    (h.swap i j).heap k = h.heap k := by
  simp [swap, hi, hj]

theorem bubbleLoop_step [LinearOrder α] (fuel : Nat) (h : PQHeap α) (child : Nat) :
    bubbleLoop (fuel + 1) h child =
      if !is_root child && decide (h.value child < h.value (parent child)) then
        bubbleLoop fuel (h.swap child (parent child)) (parent child)
      else h := rfl

theorem percolateLoop_step [LinearOrder α] (fuel : Nat) (h : PQHeap α) (p : Nat) :
    percolateLoop (fuel + 1) h p =
      if !h.is_leaf p then
        if h.value p ≤ h.value (h.smallerChild p) then h
        else percolateLoop fuel (h.swap (h.smallerChild p) p) (h.smallerChild p)
      else h := rfl

/-- One more unit of fuel does not change the result of the `bubble` loop. -/
theorem bubbleLoop_succ [LinearOrder α] :
    ∀ (fuel : Nat) (h : PQHeap α) (child : Nat), child ≤ fuel →
      bubbleLoop (fuel + 1) h child = bubbleLoop fuel h child
  | 0, h, child, hf => by
    have h0 : child = 0 := by omega
    subst h0
    simp [bubbleLoop, value, parent]
  | fuel + 1, h, child, hf => by
    rw [bubbleLoop_step (fuel + 1) h child, bubbleLoop_step fuel h child]
    split_ifs with hc
    · exact bubbleLoop_succ fuel _ _ (by unfold parent; omega)
    · rfl

/-- Any fuel of at least `child` gives the result of `bubble`. -/
theorem bubbleLoop_fuel [LinearOrder α] :
    ∀ (fuel : Nat) (h : PQHeap α) (child : Nat), child ≤ fuel →
      bubbleLoop fuel h child = h.bubble child
  | 0, h, child, hf => by
    have h0 : child = 0 := by omega
    subst h0; rfl
  | fuel + 1, h, child, hf => by
    by_cases hcf : child = fuel + 1
    · subst hcf; rfl
    · rw [bubbleLoop_succ fuel h child (by omega)]
      exact bubbleLoop_fuel fuel h child (by omega)

/-- The loop equation of `bubble` in the source. -/
theorem bubble_eq [LinearOrder α] (h : PQHeap α) (child : Nat) :
    h.bubble child =
      if !is_root child && decide (h.value child < h.value (parent child)) then
        (h.swap child (parent child)).bubble (parent child)
      else h := by
  cases child with
  | zero => simp [bubble, bubbleLoop, value, parent]
  | succ c =>
    show bubbleLoop (c + 1) h (c + 1) = _
    rw [bubbleLoop_step]
    split_ifs with hc
    · exact bubbleLoop_fuel c _ _ (by unfold parent; omega)
    · rfl

theorem lt_smallerChild [LinearOrder α] (h : PQHeap α) (p : Nat)
    (hl : (!h.is_leaf p) = true) : p + 1 ≤ h.smallerChild p := by
  simp [is_leaf, valid, left, root] at hl
  unfold smallerChild right left
  split_ifs <;> omega

/-- One more unit of fuel does not change the result of the `percolate` loop. -/
theorem percolateLoop_succ [LinearOrder α] :
    ∀ (fuel : Nat) (h : PQHeap α) (p : Nat), h.n + 1 ≤ fuel + p →
      percolateLoop (fuel + 1) h p = percolateLoop fuel h p
  | 0, h, p, hf => by
    have hl : h.is_leaf p = true := by
      simp [is_leaf, valid, left]; omega
    simp [percolateLoop, hl]
  | fuel + 1, h, p, hf => by
    rw [percolateLoop_step (fuel + 1) h p, percolateLoop_step fuel h p]
    split_ifs with hl hv
    · rfl
    · have hp := lt_smallerChild h p hl
      exact percolateLoop_succ fuel _ _ (by rw [swap_n]; omega)
    · rfl

/-- Any fuel that covers the distance from `p` to `n` gives the result of
`percolate`. -/
theorem percolateLoop_fuel [LinearOrder α] :
    ∀ (fuel : Nat) (h : PQHeap α) (p : Nat), h.n ≤ fuel →
      percolateLoop fuel h p = h.percolate p
  | 0, h, p, hf => by
    have h0 : h.n = 0 := by omega
    unfold percolate; rw [h0]
  | fuel + 1, h, p, hf => by
    by_cases hcf : h.n = fuel + 1
    · unfold percolate; rw [hcf]
    · by_cases hp : p = 0
      · subst hp
        have hl : h.is_leaf 0 = true := by simp [is_leaf, valid, left, root]
        rw [percolateLoop_step]
        unfold percolate
        cases h.n with
        | zero => simp [percolateLoop, hl]
        | succ m => simp [percolateLoop, hl]
      · rw [percolateLoop_succ fuel h p (by omega)]
        exact percolateLoop_fuel fuel h p (by omega)

/-- The loop equation of `percolate` in the source. -/
theorem percolate_eq [LinearOrder α] (h : PQHeap α) (p : Nat) :
    h.percolate p =
      if !h.is_leaf p then
        if h.value p ≤ h.value (h.smallerChild p) then h
        else (h.swap (h.smallerChild p) p).percolate (h.smallerChild p)
      else h := by
  by_cases hl : (!h.is_leaf p) = true
  · rw [← percolateLoop_fuel (h.n + 1) h p (by omega), percolateLoop_step]
    rw [if_pos hl, if_pos hl]
    split_ifs with hv
    · rfl
    · exact percolateLoop_fuel _ _ _ (by rw [swap_n])
  · rw [← percolateLoop_fuel (h.n + 1) h p (by omega), percolateLoop_step]
    rw [if_neg hl, if_neg hl]


theorem heapOrdered_iff_orderedFrom [LinearOrder α] (h : PQHeap α) :
    HeapOrdered h ↔ OrderedFrom 1 h := by
  constructor
  · intro ho i h2 hn _; exact ho i h2 hn
  · intro ho i h2 hn; exact ho i h2 hn (by omega)

/-- The `bubble` loop started at the only index that may be below its parent
restores heap order. -/
theorem bubbleLoop_heapOrdered [LinearOrder α] :
    ∀ (fuel : Nat) (h : PQHeap α) (c : Nat), c ≤ fuel → BubbleInv h c →
      HeapOrdered (bubbleLoop fuel h c)
  | 0, h, c, hf, hinv => by have := hinv.1; omega
  | fuel + 1, h, c, hf, ⟨h1, h2, h3, h4⟩ => by
    rw [bubbleLoop_step]
    split_ifs with hc
    · simp only [Bool.and_eq_true, Bool.not_eq_true', decide_eq_true_eq, is_root,
        beq_eq_false_iff_ne, ne_eq, root, value, parent] at hc
      obtain ⟨hne, hlt⟩ := hc
      have hc2 : 2 ≤ c := by omega
      apply bubbleLoop_heapOrdered fuel _ _ (by unfold parent; omega)
      unfold parent
      refine ⟨by omega, by rw [swap_n]; omega, ?_, ?_⟩
      · intro i hi2 hin hne'
        rw [swap_n] at hin
        by_cases hic : i = c
        · subst hic
          rw [swap_heap_left, swap_heap_right]
          exact le_of_lt hlt
        · rw [swap_heap_other h c (c / 2) i hic hne']
          by_cases hp1 : i / 2 = c
          · rw [hp1, swap_heap_left]
            exact h4 i hi2 hin hp1 hc2
          · by_cases hp2 : i / 2 = c / 2
            · rw [hp2, swap_heap_right]
              have := h3 i hi2 hin hic
              rw [hp2] at this
              exact le_trans (le_of_lt hlt) this
            · rw [swap_heap_other h c (c / 2) (i / 2) hp1 hp2]
              exact h3 i hi2 hin hic
      · intro i hi2 hin hpar hp2
        rw [swap_n] at hin
        have hgp : (h.swap c (c / 2)).heap (c / 2 / 2) = h.heap (c / 2 / 2) :=
          swap_heap_other h c (c / 2) _ (by omega) (by omega)
        rw [hgp]
        have hpp : h.heap (c / 2 / 2) ≤ h.heap (c / 2) := h3 (c / 2) hp2 (by omega) (by omega)
        by_cases hic : i = c
        · subst hic
          rw [swap_heap_left]; exact hpp
        · rw [swap_heap_other h c (c / 2) i hic (by omega)]
          have := h3 i hi2 hin hic
          rw [hpar] at this
          exact le_trans hpp this
    · simp only [Bool.and_eq_true, Bool.not_eq_true', decide_eq_true_eq, is_root,
        beq_eq_false_iff_ne, ne_eq, root, value, parent, not_and, not_lt] at hc
      intro i hi2 hin
      by_cases hic : i = c
      · subst hic
        exact hc (by omega)
      · exact h3 i hi2 hin hic

theorem smallerChild_spec [LinearOrder α] (h : PQHeap α) (p : Nat)
    (hl : (!h.is_leaf p) = true) :
    h.smallerChild p / 2 = p ∧ 2 ≤ h.smallerChild p ∧ h.smallerChild p ≤ h.n ∧
      ∀ i, 2 ≤ i → i ≤ h.n → i / 2 = p → h.heap (h.smallerChild p) ≤ h.heap i := by
  simp only [is_leaf, valid, left, root, Bool.not_not, Bool.and_eq_true, decide_eq_true_eq,
    ge_iff_le] at hl
  unfold smallerChild
  split_ifs with hr
  · simp only [has_right, valid, right, left, root, value, Bool.and_eq_true,
      decide_eq_true_eq, ge_iff_le] at hr
    refine ⟨by unfold right left; omega, by unfold right left; omega,
      by unfold right left; omega, ?_⟩
    intro i hi2 hin hpar
    have hcase : i = p * 2 + 1 ∨ i = p * 2 := by omega
    rcases hcase with hi | hi
    · subst hi; exact le_refl _
    · subst hi; exact le_of_lt hr.2
  · simp only [has_right, valid, right, left, root, value, Bool.and_eq_true,
      decide_eq_true_eq, ge_iff_le, not_and, not_lt] at hr
    refine ⟨by unfold left; omega, by unfold left; omega, by unfold left; omega, ?_⟩
    intro i hi2 hin hpar
    have hcase : i = p * 2 + 1 ∨ i = p * 2 := by omega
    rcases hcase with hi | hi
    · subst hi; exact hr ⟨hin, by omega⟩
    · subst hi; exact le_refl _

/-- The `percolate` loop started at the only index that may be above its
children restores heap order on the edges whose parent is at least `k`. -/
theorem percolateLoop_orderedFrom [LinearOrder α] (k : Nat) :
    ∀ (fuel : Nat) (h : PQHeap α) (p : Nat), h.n + 1 ≤ fuel + p → PercInv k h p →
      OrderedFrom k (percolateLoop fuel h p)
  | 0, h, p, hf, ⟨_, _, h3, _⟩ => by
    show OrderedFrom k h
    intro i hi2 hin hk
    exact h3 i hi2 hin hk (by omega)
  | fuel + 1, h, p, hf, ⟨hk1, hkp, h3, h4⟩ => by
    rw [percolateLoop_step]
    split_ifs with hl hv
    · obtain ⟨_, _, _, hmin⟩ := smallerChild_spec h p hl
      intro i hi2 hin hk
      by_cases hpar : i / 2 = p
      · rw [hpar]; exact le_trans hv (hmin i hi2 hin hpar)
      · exact h3 i hi2 hin hk hpar
    · obtain ⟨hcp, hc2, hcn, hmin⟩ := smallerChild_spec h p hl
      have hlt : h.heap (h.smallerChild p) < h.heap p := not_le.mp hv
      generalize h.smallerChild p = c at hcp hc2 hcn hmin hlt
      apply percolateLoop_orderedFrom k fuel _ _ (by rw [swap_n]; omega)
      refine ⟨hk1, by omega, ?_, ?_⟩
      · intro i hi2 hin hk hne
        rw [swap_n] at hin
        by_cases hic : i = c
        · subst hic
          rw [hcp, swap_heap_left, swap_heap_right]
          exact le_of_lt hlt
        · by_cases hip : i = p
          · subst hip
            rw [swap_heap_right, swap_heap_other h c i (i / 2) (by omega) (by omega)]
            exact h4 c hc2 hcn hcp hk
          · rw [swap_heap_other h c p i hic hip]
            by_cases hpar : i / 2 = p
            · rw [hpar, swap_heap_right]
              exact hmin i hi2 hin hpar
            · rw [swap_heap_other h c p (i / 2) hne hpar]
              exact h3 i hi2 hin hk hpar
      · intro i hi2 hin hpar _
        rw [swap_n] at hin
        rw [hcp, swap_heap_right, swap_heap_other h c p i (by omega) (by omega)]
        have := h3 i hi2 hin (by omega) (by omega)
        rw [hpar] at this
        exact this
    · simp only [is_leaf, valid, left, root, Bool.not_not, Bool.and_eq_true, decide_eq_true_eq,
        ge_iff_le, not_and, not_le] at hl
      intro i hi2 hin hk
      exact h3 i hi2 hin hk (by omega)

/-- In an ordered heap the root is below every occupied slot. -/
theorem root_le_of_heapOrdered [LinearOrder α] (h : PQHeap α) (ho : HeapOrdered h) :
    ∀ i, 1 ≤ i → i ≤ h.n → h.heap 1 ≤ h.heap i := by
  intro i
  induction i using Nat.strong_induction_on with
  | _ i ih =>
    intro h1 hn
    by_cases hi : i = 1
    · subst hi; exact le_refl _
    · exact le_trans (ih (i / 2) (by omega) (by omega) (by omega)) (ho i (by omega) hn)

end PQHeap

/-- Exchanging the images of two members of a duplicate-free list of indices
permutes the list of images. -/
theorem perm_map_swap {β : Type} (f : Nat → β) (l : List Nat) (hl : l.Nodup) (i j : Nat)
    (hi : i ∈ l) (hj : j ∈ l) :
    (l.map (fun k => if k = i then f j else if k = j then f i else f k)).Perm (l.map f) := by
  have h1 : (fun k => if k = i then f j else if k = j then f i else f k)
      = f ∘ (Equiv.swap i j) := by
    funext k
    simp only [Function.comp, Equiv.swap_apply_def]
    split_ifs <;> rfl
  rw [h1, ← List.map_map]
  apply List.Perm.map
  rw [List.perm_ext_iff_of_nodup (hl.map (Equiv.swap i j).injective) hl]
  intro a
  simp only [List.mem_map]
  constructor
  · rintro ⟨b, hb, rfl⟩
    rw [Equiv.swap_apply_def]
    split_ifs <;> assumption
  · intro ha
    refine ⟨Equiv.swap i j a, ?_, Equiv.swap_apply_self i j a⟩
    rw [Equiv.swap_apply_def]
    split_ifs <;> assumption

theorem map_range_succ {β : Type} (f : Nat → β) (n : Nat) :
    (List.range' 1 (n + 1)).map f = (List.range' 1 n).map f ++ [f (n + 1)] := by
  rw [List.range'_concat, List.map_append]
  simp [Nat.add_comm]

theorem map_range_congr {β : Type} (f g : Nat → β) (n : Nat)
    (hfg : ∀ i, 1 ≤ i → i ≤ n → f i = g i) :
    (List.range' 1 n).map f = (List.range' 1 n).map g := by
  apply List.map_congr_left
  intro i hi
  rw [List.mem_range'_1] at hi
  exact hfg i hi.1 (by omega)

theorem mem_map_range {β : Type} (f : Nat → β) (n : Nat) (b : β) :
    b ∈ (List.range' 1 n).map f ↔ ∃ i, 1 ≤ i ∧ i ≤ n ∧ f i = b := by
  simp only [List.mem_map, List.mem_range'_1]
  constructor
  · rintro ⟨i, ⟨h1, h2⟩, rfl⟩; exact ⟨i, h1, by omega, rfl⟩
  · rintro ⟨i, h1, h2, rfl⟩; exact ⟨i, ⟨h1, by omega⟩, rfl⟩

namespace PQHeap

variable {α : Type}

theorem elems_swap (h : PQHeap α) (i j : Nat) (hi1 : 1 ≤ i) (hin : i ≤ h.n)
    (hj1 : 1 ≤ j) (hjn : j ≤ h.n) : (h.swap i j).elems.Perm h.elems := by
  unfold elems swap
  exact perm_map_swap h.heap _ (List.nodup_range' 1 h.n) i j
    (by rw [List.mem_range'_1]; omega) (by rw [List.mem_range'_1]; omega)

theorem bubbleLoop_n [LinearOrder α] :
    ∀ (fuel : Nat) (h : PQHeap α) (c : Nat), (bubbleLoop fuel h c).n = h.n
  | 0, _, _ => rfl
  | fuel + 1, h, c => by
    rw [bubbleLoop_step]
    split_ifs
    · rw [bubbleLoop_n fuel, swap_n]
    · rfl

theorem percolateLoop_n [LinearOrder α] :
    ∀ (fuel : Nat) (h : PQHeap α) (p : Nat), (percolateLoop fuel h p).n = h.n
  | 0, _, _ => rfl
  | fuel + 1, h, p => by
    rw [percolateLoop_step]
    split_ifs
    · rfl
    · rw [percolateLoop_n fuel, swap_n]
    · rfl

theorem bubbleLoop_elems [LinearOrder α] :
    ∀ (fuel : Nat) (h : PQHeap α) (c : Nat), c ≤ h.n → (bubbleLoop fuel h c).elems.Perm h.elems
  | 0, _, _, _ => List.Perm.refl _
  | fuel + 1, h, c, hc => by
    rw [bubbleLoop_step]
    split_ifs with hcond
    · simp only [Bool.and_eq_true, Bool.not_eq_true', decide_eq_true_eq, is_root,
        beq_eq_false_iff_ne, ne_eq, root, value, parent] at hcond
      have hc0 : c ≠ 0 := by
        intro h0; subst h0; exact lt_irrefl _ hcond.2
      exact (bubbleLoop_elems fuel _ _ (by rw [swap_n]; unfold parent; omega)).trans
        (elems_swap h c (parent c) (by omega) hc (by unfold parent; omega)
          (by unfold parent; omega))
    · exact List.Perm.refl _

theorem percolateLoop_elems [LinearOrder α] :
    ∀ (fuel : Nat) (h : PQHeap α) (p : Nat), (percolateLoop fuel h p).elems.Perm h.elems
  | 0, _, _ => List.Perm.refl _
  | fuel + 1, h, p => by
    rw [percolateLoop_step]
    split_ifs with hl hv
    · exact List.Perm.refl _
    · obtain ⟨hcp, hc2, hcn, _⟩ := smallerChild_spec h p hl
      exact (percolateLoop_elems fuel _ _).trans
        (elems_swap h _ p (by omega) hcn (by omega) (by omega))
    · exact List.Perm.refl _


theorem grow_n [Inhabited α] (h : PQHeap α) : h.grow.n = h.n := by
  unfold grow
  split_ifs <;> rfl

theorem grow_heap [Inhabited α] (h : PQHeap α) (i : Nat) (h1 : 1 ≤ i) (hn : i ≤ h.n) :
    h.grow.heap i = h.heap i := by
  unfold grow
  split_ifs
  · simp [resize, h1, hn]
  · rfl

theorem enqueue_n [LinearOrder α] [Inhabited α] (h : PQHeap α) (v : α) :
    (h.enqueue v).n = h.n + 1 := by
  unfold enqueue bubble
  simp only [bubbleLoop_n, push, grow_n]

theorem enqueue_heapOrdered [LinearOrder α] [Inhabited α] (h : PQHeap α) (v : α)
    (ho : HeapOrdered h) : HeapOrdered (h.enqueue v) := by
  unfold enqueue bubble
  apply bubbleLoop_heapOrdered _ _ _ (le_refl _)
  have hn := grow_n h
  have hh := grow_heap h
  generalize h.grow = g at hn hh
  refine ⟨by simp [push], le_refl _, ?_, ?_⟩
  · intro i hi2 hin hne
    simp only [push] at hin hne ⊢
    rw [if_neg (by omega), if_neg hne, hh i (by omega) (by omega),
      hh (i / 2) (by omega) (by omega)]
    exact ho i hi2 (by omega)
  · intro i hi2 hin hpar
    simp only [push] at hin hpar
    omega

theorem enqueue_elems [LinearOrder α] [Inhabited α] (h : PQHeap α) (v : α) :
    (h.enqueue v).elems.Perm (v :: h.elems) := by
  unfold enqueue bubble
  refine (bubbleLoop_elems _ _ _ (le_refl _)).trans ?_
  have hn := grow_n h
  have hh := grow_heap h
  generalize h.grow = g at hn hh
  unfold elems
  simp only [push]
  rw [map_range_succ, if_pos rfl, hn]
  rw [map_range_congr (fun k => if k = h.n + 1 then v else g.heap k) h.heap h.n
    (fun i h1 h2 => by simp only; rw [if_neg (by omega), hh i h1 h2])]
  exact List.perm_append_singleton v _

theorem dequeue_ok [LinearOrder α] (h : PQHeap α) (hn : h.n ≠ 0) :
    h.dequeue = .ok (percolate { h.swap root h.n with n := h.n - 1 } root) := by
  simp [dequeue, empty, hn]

theorem dequeue_n [LinearOrder α] (h h' : PQHeap α) (hd : h.dequeue = .ok h') :
    h.n ≠ 0 ∧ h'.n = h.n - 1 := by
  by_cases hn : h.n = 0
  · simp [dequeue, empty, hn] at hd
  · rw [dequeue_ok h hn] at hd
    injection hd with hd
    subst hd
    exact ⟨hn, by unfold percolate; rw [percolateLoop_n]⟩

theorem dequeue_heapOrdered [LinearOrder α] (h h' : PQHeap α) (hd : h.dequeue = .ok h')
    (ho : HeapOrdered h) : HeapOrdered h' := by
  have hn := (dequeue_n h h' hd).1
  rw [dequeue_ok h hn] at hd
  injection hd with hd
  subst hd
  rw [heapOrdered_iff_orderedFrom]
  unfold percolate
  apply percolateLoop_orderedFrom 1 _ _ _ (by unfold root; omega)
  refine ⟨le_refl _, le_refl _, ?_, ?_⟩
  · intro i hi2 hin hk hne
    simp only [root] at hin hne ⊢
    rw [swap_heap_other h 1 h.n i (by omega) (by omega),
      swap_heap_other h 1 h.n (i / 2) (by omega) (by omega)]
    exact ho i hi2 (by omega)
  · intro i _ _ _ hk
    simp [root] at hk

theorem dequeue_elems [LinearOrder α] (h h' : PQHeap α) (hd : h.dequeue = .ok h') :
    h.elems.Perm (h.heap 1 :: h'.elems) := by
  have hn := (dequeue_n h h' hd).1
  rw [dequeue_ok h hn] at hd
  injection hd with hd
  subst hd
  unfold percolate
  refine List.Perm.trans ?_ (List.Perm.cons _ (percolateLoop_elems _ _ _).symm)
  refine (elems_swap h 1 h.n (le_refl _) (by omega) (by omega) (le_refl _)).symm.trans ?_
  unfold elems
  obtain ⟨m, hm⟩ : ∃ m, h.n = m + 1 := ⟨h.n - 1, by omega⟩
  simp only [swap_n, root, hm, Nat.add_sub_cancel]
  rw [map_range_succ, ← hm, swap_heap_right]
  exact List.perm_append_singleton _ _

theorem elems_nil (h : PQHeap α) (hn : h.n = 0) : h.elems = [] := by
  simp [elems, hn]

theorem drainLoop_step [LinearOrder α] (fuel : Nat) (h : PQHeap α) (hn : h.n ≠ 0) :
    drainLoop (fuel + 1) h =
      h.heap 1 :: drainLoop fuel (percolate { h.swap root h.n with n := h.n - 1 } root) := by
  simp [drainLoop, peek, dequeue, empty, hn, root]

/-- Draining an ordered heap lists its elements in ascending order. -/
theorem drainLoop_spec [LinearOrder α] :
    ∀ (fuel : Nat) (h : PQHeap α), h.n ≤ fuel → HeapOrdered h →
      (drainLoop fuel h).Sorted (· ≤ ·) ∧ (drainLoop fuel h).Perm h.elems
  | 0, h, hf, _ => by
    rw [elems_nil h (by omega)]
    exact ⟨List.sorted_nil, List.Perm.refl _⟩
  | fuel + 1, h, hf, ho => by
    by_cases hn : h.n = 0
    · rw [elems_nil h hn]
      simp [drainLoop, empty, hn]
    · rw [drainLoop_step fuel h hn]
      have hd := dequeue_ok h hn
      generalize percolate { h.swap root h.n with n := h.n - 1 } root = h' at hd
      have hn' := (dequeue_n h h' hd).2
      obtain ⟨ihs, ihp⟩ := drainLoop_spec fuel h' (by omega) (dequeue_heapOrdered h h' hd ho)
      have hperm := dequeue_elems h h' hd
      refine ⟨?_, (List.Perm.cons _ ihp).trans hperm.symm⟩
      rw [List.sorted_cons]
      refine ⟨?_, ihs⟩
      intro b hb
      have hb' : b ∈ h.elems := hperm.symm.subset (List.mem_cons_of_mem _ (ihp.subset hb))
      unfold elems at hb'
      rw [mem_map_range] at hb'
      obtain ⟨i, h1, h2, rfl⟩ := hb'
      exact root_le_of_heapOrdered h ho i h1 h2

theorem enqueueAll_spec [LinearOrder α] [Inhabited α] :
    ∀ (xs : List α) (h : PQHeap α), HeapOrdered h →
      HeapOrdered (h.enqueueAll xs) ∧ (h.enqueueAll xs).elems.Perm (xs ++ h.elems)
  | [], h, ho => ⟨ho, List.Perm.refl _⟩
  | x :: xs, h, ho => by
    obtain ⟨h1, h2⟩ := enqueueAll_spec xs (h.enqueue x) (enqueue_heapOrdered h x ho)
    refine ⟨h1, h2.trans ?_⟩
    refine ((List.Perm.append_left xs (enqueue_elems h x)).trans ?_)
    simp only [List.cons_append]
    exact List.perm_middle

theorem new_heapOrdered [LinearOrder α] [Inhabited α] : HeapOrdered (new : PQHeap α) := by
  intro i h2 hn
  simp only [new] at hn
  omega

end PQHeap

namespace DictHash

variable {K V : Type} [DecidableEq K]

theorem lookup_insert (l : List (K × V)) (k k' : K) (v : V) :
    lookup (insert l k v) k' = if k' = k then some v else lookup l k' := by
  induction l with
  | nil =>
    simp only [insert, lookup]
    by_cases h : k' = k
    · simp [h]
    · simp [h, Ne.symm h]
  | cons e rest ih =>
    obtain ⟨a, b⟩ := e
    simp only [insert]
    by_cases hak : a = k
    · subst hak
      by_cases h : k' = a
      · subst h; simp [lookup]
      · simp [lookup, h, Ne.symm h]
    · rw [if_neg hak]
      simp only [lookup, ih]
      by_cases h : k' = k
      · subst h; simp [hak]
      · simp [h]

theorem get_add [Inhabited V] (d : DictHash K V) (k k' : K) (v : V) :
    (d.add k v).get k' = if k' = k then v else d.get k' := by
  unfold get add
  simp only [lookup_insert]
  split_ifs <;> rfl

theorem has_add (d : DictHash K V) (k k' : K) (v : V) :
    (d.add k v).has k' = true ↔ k' = k ∨ d.has k' = true := by
  unfold has add
  simp only [lookup_insert]
  split_ifs with h <;> simp [h]

theorem has_new (k : K) : (new : DictHash K V).has k = false := rfl

end DictHash

namespace NewsFeed

theorem feed_swap_n (s : NewsFeed) (i j : Nat) : (s.swap i j).n = s.n := rfl

theorem swap_weight (s : NewsFeed) (i j : Nat) (k : Headline) :
    (s.swap i j).weight k = s.weight k := rfl

theorem swap_heap (s : NewsFeed) (i j k : Nat) :
    (s.swap i j).heap k = s.heap (Equiv.swap i j k) := by
  simp only [swap, Equiv.swap_apply_def]
  split_ifs <;> rfl

theorem feed_swap_heap_right (s : NewsFeed) (i j : Nat) : (s.swap i j).heap j = s.heap i := by
  rw [swap_heap, Equiv.swap_apply_right]

theorem abs_swap (s : NewsFeed) (i j : Nat) : (s.swap i j).abs = s.abs.swap i j := by
  unfold abs PQHeap.swap
  simp only [swap_weight, feed_swap_n]
  congr 1
  funext k
  simp only [swap]
  split_ifs <;> rfl

theorem swap_range (n i j k : Nat) (hi1 : 1 ≤ i) (hin : i ≤ n) (hj1 : 1 ≤ j) (hjn : j ≤ n)
    (hk1 : 1 ≤ k) (hkn : k ≤ n) : 1 ≤ Equiv.swap i j k ∧ Equiv.swap i j k ≤ n := by
  rw [Equiv.swap_apply_def]
  split_ifs <;> omega

theorem swap_positionIndexed (s : NewsFeed) (i j : Nat) (hi1 : 1 ≤ i) (hin : i ≤ s.n)
    (hj1 : 1 ≤ j) (hjn : j ≤ s.n) (hp : PositionIndexed s) :
    PositionIndexed (s.swap i j) := by
  obtain ⟨hd, hl⟩ := hp
  have hd' : ∀ a b, 1 ≤ a → a ≤ s.n → 1 ≤ b → b ≤ s.n →
      (s.swap i j).heap a = (s.swap i j).heap b → a = b := by
    intro a b ha1 han hb1 hbn hab
    rw [swap_heap, swap_heap] at hab
    have ra := swap_range s.n i j a hi1 hin hj1 hjn ha1 han
    have rb := swap_range s.n i j b hi1 hin hj1 hjn hb1 hbn
    exact (Equiv.swap i j).injective (hd _ _ ra.1 ra.2 rb.1 rb.2 hab)
  refine ⟨hd', ?_⟩
  intro k hk1 hkn
  rw [feed_swap_n] at hkn
  show (((s.locations.add ((s.swap i j).heap i) i).add ((s.swap i j).heap j) j)).get
    ((s.swap i j).heap k) = k
  rw [DictHash.get_add, DictHash.get_add]
  by_cases hkj : k = j
  · subst hkj; rw [if_pos rfl]
  · rw [if_neg (fun h => hkj (hd' k j hk1 hkn hj1 hjn h))]
    by_cases hki : k = i
    · subst hki; rw [if_pos rfl]
    · rw [if_neg (fun h => hki (hd' k i hk1 hkn hi1 hin h))]
      rw [swap_heap, Equiv.swap_apply_of_ne_of_ne hki hkj]
      exact hl k hk1 hkn

theorem swap_keys (s : NewsFeed) (i j : Nat) (hi1 : 1 ≤ i) (hin : i ≤ s.n)
    (hj1 : 1 ≤ j) (hjn : j ≤ s.n) : (s.swap i j).keys.Perm s.keys := by
  unfold keys swap
  exact perm_map_swap s.heap _ (List.nodup_range' 1 s.n) i j
    (by rw [List.mem_range'_1]; omega) (by rw [List.mem_range'_1]; omega)

theorem inQueue_iff_mem_keys (s : NewsFeed) (k : Headline) : InQueue s k ↔ k ∈ s.keys := by
  unfold keys InQueue
  rw [mem_map_range]

/-- What a run of in-range swaps leaves alone, and what it preserves. -/
theorem Shuffled.frame {s t : NewsFeed} (h : Shuffled s t) :
    t.n = s.n ∧ t.stories = s.stories ∧ t.staleness = s.staleness ∧
    t.capacity = s.capacity ∧ t.alloc = s.alloc ∧ t.keys.Perm s.keys ∧
    (PositionIndexed s → PositionIndexed t) := by
  induction h with
  | refl s => exact ⟨rfl, rfl, rfl, rfl, rfl, List.Perm.refl _, id⟩
  | swap s t i j hi1 hin hj1 hjn _ ih =>
    obtain ⟨h1, h2, h3, h4, h5, h6, h7⟩ := ih
    exact ⟨h1, h2, h3, h4, h5, h6.trans (swap_keys s i j hi1 hin hj1 hjn),
      fun hp => h7 (swap_positionIndexed s i j hi1 hin hj1 hjn hp)⟩

theorem feed_bubbleLoop_step (fuel : Nat) (s : NewsFeed) (child : Nat) :
    bubbleLoop (fuel + 1) s child =
      if !s.is_root child && decide (s.value child < s.value (parent child)) then
        bubbleLoop fuel (s.swap child (parent child)) (parent child)
      else s := rfl

theorem feed_percolateLoop_step (fuel : Nat) (s : NewsFeed) (p : Nat) :
    percolateLoop (fuel + 1) s p =
      if !s.is_leaf p then
        if s.value p ≤ s.value (s.smallerChild p) then s
        else percolateLoop fuel (s.swap (s.smallerChild p) p) (s.smallerChild p)
      else s := rfl

theorem bubble_cond (s : NewsFeed) (c : Nat) (hc : c ≤ s.n) :
    (!s.is_root c && decide (s.value c < s.value (parent c))) =
      (!PQHeap.is_root c && decide (s.abs.value c < s.abs.value (PQHeap.parent c))) := by
  have hv : (s.value c < s.value (parent c)) ↔
      (s.abs.value c < s.abs.value (PQHeap.parent c)) := Iff.rfl
  by_cases h0 : c = 0
  · subst h0
    simp [value, parent, PQHeap.value, PQHeap.parent]
  · have hr : s.is_root c = PQHeap.is_root c := by
      simp only [is_root, valid, parent, PQHeap.is_root, PQHeap.root]
      by_cases h1 : c = 1
      · subst h1; simp
      · have h2 : 0 < c / 2 := by omega
        have h3 : c / 2 ≤ s.n := by omega
        simp [h1, h2, h3]
    rw [hr]
    simp only [hv]

theorem bubbleLoop_abs :
    ∀ (fuel : Nat) (s : NewsFeed) (c : Nat), c ≤ s.n →
      (bubbleLoop fuel s c).abs = PQHeap.bubbleLoop fuel s.abs c
  | 0, _, _, _ => rfl
  | fuel + 1, s, c, hc => by
    rw [feed_bubbleLoop_step, PQHeap.bubbleLoop_step, bubble_cond s c hc]
    split_ifs with hcond
    · rw [bubbleLoop_abs fuel _ _ (by rw [feed_swap_n]; unfold parent; omega), abs_swap]
      rfl
    · rfl

theorem bubbleLoop_shuffled :
    ∀ (fuel : Nat) (s : NewsFeed) (c : Nat), c ≤ s.n → Shuffled s (bubbleLoop fuel s c)
  | 0, s, _, _ => Shuffled.refl s
  | fuel + 1, s, c, hc => by
    rw [feed_bubbleLoop_step]
    split_ifs with hcond
    · simp only [is_root, valid, parent, Bool.not_not, Bool.and_eq_true,
        decide_eq_true_eq] at hcond
      exact Shuffled.swap s _ c (parent c) (by omega) hc (by unfold parent; omega)
        (by unfold parent; omega)
        (bubbleLoop_shuffled fuel _ _ (by rw [feed_swap_n]; unfold parent; omega))
    · exact Shuffled.refl s

theorem leaf_eq (s : NewsFeed) (p : Nat) : s.is_leaf p = s.abs.is_leaf p := by
  simp only [is_leaf, valid, left, PQHeap.is_leaf, PQHeap.valid, PQHeap.left, PQHeap.root, abs]
  rw [Bool.and_comm]
  rfl

theorem smallerChild_eq (s : NewsFeed) (p : Nat) : s.smallerChild p = s.abs.smallerChild p := by
  have hr : s.has_right p = s.abs.has_right p := by
    simp only [has_right, valid, right, left, PQHeap.has_right, PQHeap.valid, PQHeap.right,
      PQHeap.left, PQHeap.root, abs]
    rw [Bool.and_comm]
    rfl
  unfold smallerChild PQHeap.smallerChild
  rw [hr]
  rfl

theorem percolateLoop_abs :
    ∀ (fuel : Nat) (s : NewsFeed) (p : Nat),
      (percolateLoop fuel s p).abs = PQHeap.percolateLoop fuel s.abs p
  | 0, _, _ => rfl
  | fuel + 1, s, p => by
    rw [feed_percolateLoop_step, PQHeap.percolateLoop_step, leaf_eq, smallerChild_eq]
    have hv : ∀ i, s.value i = s.abs.value i := fun _ => rfl
    rw [hv, hv]
    split_ifs with hl hcond
    · rfl
    · rw [percolateLoop_abs fuel, abs_swap]
    · rfl

theorem percolateLoop_shuffled :
    ∀ (fuel : Nat) (s : NewsFeed) (p : Nat), Shuffled s (percolateLoop fuel s p)
  | 0, s, _ => Shuffled.refl s
  | fuel + 1, s, p => by
    rw [feed_percolateLoop_step]
    split_ifs with hl hcond
    · exact Shuffled.refl s
    · rw [leaf_eq] at hl
      obtain ⟨hcp, hc2, hcn, _⟩ := PQHeap.smallerChild_spec s.abs p hl
      rw [← smallerChild_eq] at hcp hc2 hcn
      exact Shuffled.swap s _ _ p (by omega) hcn (by omega)
        (by have : s.abs.n = s.n := rfl
            omega)
        (percolateLoop_shuffled fuel _ _)
    · exact Shuffled.refl s


theorem heapOrdered_iff_abs (s : NewsFeed) : HeapOrdered s ↔ PQHeap.HeapOrdered s.abs :=
  Iff.rfl

theorem new_inv : Inv NewsFeed.new := by
  refine ⟨?_, ⟨?_, ?_⟩, ?_⟩
  · intro i _ hn; simp only [NewsFeed.new] at hn; omega
  · intro i j _ hn; simp only [NewsFeed.new] at hn; omega
  · intro i _ hn; simp only [NewsFeed.new] at hn; omega
  · rintro k ⟨i, h1, hn, _⟩; simp only [NewsFeed.new] at hn; omega

theorem feed_grow_n (s : NewsFeed) : s.grow.n = s.n := by
  unfold grow
  split_ifs <;> rfl

theorem feed_grow_heap (s : NewsFeed) (i : Nat) (h1 : 1 ≤ i) (hn : i ≤ s.n) :
    s.grow.heap i = s.heap i := by
  unfold grow
  split_ifs
  · simp [resize, h1, hn]
  · rfl

theorem grow_maps (s : NewsFeed) :
    s.grow.stories = s.stories ∧ s.grow.staleness = s.staleness ∧
      s.grow.locations = s.locations := by
  unfold grow
  split_ifs <;> exact ⟨rfl, rfl, rfl⟩

/-- Shape of a successful `enqueue`: the headline was not tracked, and the
result is `bubble(n)` run on the state with the three maps and the new last
slot filled in. -/
theorem enqueue_shape (s s' : NewsFeed) (h : Headline) (st : Story) (w : Staleness)
    (he : s.enqueue h st w = .ok s') :
    s.stories.has h = false ∧ ∃ s4 : NewsFeed,
      s' = bubbleLoop (s.n + 1) s4 (s.n + 1) ∧ s4.n = s.n + 1 ∧
      s4.stories = s.stories.add h st ∧ s4.staleness = s.staleness.add h w ∧
      s4.locations = s.locations.add h (s.n + 1) ∧ s4.heap (s.n + 1) = h ∧
      ∀ i, 1 ≤ i → i ≤ s.n → s4.heap i = s.heap i := by
  by_cases hh : s.stories.has h = true
  · simp [enqueue, hh] at he
  · have hf : s.stories.has h = false := by simpa using hh
    refine ⟨hf, ?_⟩
    simp only [enqueue, hf, Bool.false_eq_true, if_false, Except.ok.injEq] at he
    subst he
    have hgn : (s.record h st w).grow.n = s.n := feed_grow_n _
    have hgh := feed_grow_heap (s.record h st w)
    obtain ⟨g1, g2, g3⟩ := grow_maps (s.record h st w)
    refine ⟨((s.record h st w).grow).append h, ?_, ?_, ?_, ?_, ?_, ?_, ?_⟩
    · show bubbleLoop (((s.record h st w).grow).n + 1) _ (((s.record h st w).grow).n + 1) = _
      rw [hgn]
    · show ((s.record h st w).grow).n + 1 = _
      rw [hgn]
    · show ((s.record h st w).grow).stories = _
      rw [g1]; rfl
    · show ((s.record h st w).grow).staleness = _
      rw [g2]; rfl
    · show ((s.record h st w).grow).locations.add h (((s.record h st w).grow).n + 1) = _
      rw [g3, hgn]; rfl
    · show (if s.n + 1 = ((s.record h st w).grow).n + 1 then h else _) = h
      rw [hgn, if_pos rfl]
    · intro i h1 h2
      show (if i = ((s.record h st w).grow).n + 1 then h else
        ((s.record h st w).grow).heap i) = s.heap i
      rw [hgn, if_neg (by omega), hgh i h1 h2]
      rfl

theorem enqueue_inv (s s' : NewsFeed) (h : Headline) (st : Story) (w : Staleness)
    (he : s.enqueue h st w = .ok s') (hinv : Inv s) : Inv s' := by
  obtain ⟨ho, ⟨hd, hl⟩, hs⟩ := hinv
  obtain ⟨hnew, s4, rfl, hn4, hst, hw, hloc, hlast, hold⟩ := enqueue_shape s s' h st w he
  have hK : ∀ i, 1 ≤ i → i ≤ s.n → s.heap i ≠ h := by
    intro i h1 h2 hi
    have := hs h ⟨i, h1, h2, hi⟩
    rw [hnew] at this
    exact Bool.false_ne_true this
  have hwt : ∀ i, 1 ≤ i → i ≤ s.n → s4.weight (s4.heap i) = s.weight (s.heap i) := by
    intro i h1 h2
    unfold weight
    rw [hw, DictHash.get_add, hold i h1 h2, if_neg (hK i h1 h2)]
  have hpos4 : PositionIndexed s4 := by
    constructor
    · intro i j hi1 hin hj1 hjn hij
      rw [hn4] at hin hjn
      by_cases hi : i = s.n + 1
      · by_cases hj : j = s.n + 1
        · omega
        · subst hi
          rw [hlast, hold j hj1 (by omega)] at hij
          exact absurd hij.symm (hK j hj1 (by omega))
      · by_cases hj : j = s.n + 1
        · subst hj
          rw [hlast, hold i hi1 (by omega)] at hij
          exact absurd hij (hK i hi1 (by omega))
        · rw [hold i hi1 (by omega), hold j hj1 (by omega)] at hij
          exact hd i j hi1 (by omega) hj1 (by omega) hij
    · intro i hi1 hin
      rw [hn4] at hin
      rw [hloc, DictHash.get_add]
      by_cases hi : i = s.n + 1
      · subst hi; rw [hlast, if_pos rfl]
      · rw [hold i hi1 (by omega), if_neg (hK i hi1 (by omega))]
        exact hl i hi1 (by omega)
  have hsh := (bubbleLoop_shuffled (s.n + 1) s4 (s.n + 1) (by omega)).frame
  obtain ⟨f1, f2, f3, _, _, f6, f7⟩ := hsh
  refine ⟨?_, f7 hpos4, ?_⟩
  · rw [heapOrdered_iff_abs, bubbleLoop_abs _ _ _ (by omega)]
    apply PQHeap.bubbleLoop_heapOrdered _ _ _ (le_refl _)
    refine ⟨by omega, by show s.n + 1 ≤ s4.n; omega, ?_, ?_⟩
    · intro i hi2 hin hne
      have hin' : i ≤ s4.n := hin
      show s4.weight (s4.heap (i / 2)) ≤ s4.weight (s4.heap i)
      rw [hwt i (by omega) (by omega), hwt (i / 2) (by omega) (by omega)]
      exact ho i hi2 (by omega)
    · intro i hi2 hin hpar
      have hin' : i ≤ s4.n := hin
      omega
  · intro k hk
    rw [inQueue_iff_mem_keys] at hk
    have hk4 := f6.subset hk
    rw [← inQueue_iff_mem_keys] at hk4
    obtain ⟨i, hi1, hin, hik⟩ := hk4
    rw [f2, hst, DictHash.has_add]
    by_cases hi : i = s.n + 1
    · subst hi; left; rw [← hik, hlast]
    · right
      rw [hold i hi1 (by omega)] at hik
      exact hs k ⟨i, hi1, by omega, hik⟩

theorem feed_dequeue_ok (s : NewsFeed) (hn : s.n ≠ 0) :
    s.dequeue = .ok (percolate { s.swap root s.n with n := s.n - 1 } root) := by
  simp [dequeue, empty, hn]

theorem dequeue_shape (s s' : NewsFeed) (hd : s.dequeue = .ok s') :
    s.n ≠ 0 ∧ s' = percolate { s.swap root s.n with n := s.n - 1 } root := by
  by_cases hn : s.n = 0
  · simp [dequeue, empty, hn] at hd
  · rw [feed_dequeue_ok s hn] at hd
    injection hd with hd
    exact ⟨hn, hd.symm⟩

theorem dequeue_inv (s s' : NewsFeed) (hdq : s.dequeue = .ok s') (hinv : Inv s) : Inv s' := by
  obtain ⟨ho, hp, hs⟩ := hinv
  obtain ⟨hn, rfl⟩ := dequeue_shape s s' hdq
  have hsw := swap_positionIndexed s 1 s.n (le_refl _) (by omega) (by omega) (le_refl _) hp
  have hkeys := swap_keys s 1 s.n (le_refl _) (by omega) (by omega) (le_refl _)
  generalize hs1 : ({ s.swap root s.n with n := s.n - 1 } : NewsFeed) = s1
  have hn1 : s1.n = s.n - 1 := by rw [← hs1]
  have hheap : s1.heap = (s.swap 1 s.n).heap := by rw [← hs1]; rfl
  have hloc : s1.locations = (s.swap 1 s.n).locations := by rw [← hs1]; rfl
  have hstal : s1.staleness = s.staleness := by rw [← hs1]; rfl
  have hstor : s1.stories = s.stories := by rw [← hs1]; rfl
  have hpos1 : PositionIndexed s1 := by
    constructor
    · intro i j hi1 hin hj1 hjn
      rw [hheap]
      exact hsw.1 i j hi1 (by rw [feed_swap_n]; omega) hj1 (by rw [feed_swap_n]; omega)
    · intro i hi1 hin
      rw [hheap, hloc]
      exact hsw.2 i hi1 (by rw [feed_swap_n]; omega)
  obtain ⟨f1, f2, f3, _, _, f6, f7⟩ := (percolateLoop_shuffled s1.n s1 root).frame
  refine ⟨?_, f7 hpos1, ?_⟩
  · rw [heapOrdered_iff_abs, PQHeap.heapOrdered_iff_orderedFrom]
    unfold percolate
    rw [percolateLoop_abs]
    apply PQHeap.percolateLoop_orderedFrom 1 _ _ _ (by show s1.n + 1 ≤ s1.n + root; unfold root; omega)
    refine ⟨le_refl _, le_refl _, ?_, ?_⟩
    · intro i hi2 hin hk hne
      have hin' : i ≤ s1.n := hin
      simp only [root] at hne
      show s1.weight (s1.heap (i / 2)) ≤ s1.weight (s1.heap i)
      unfold weight
      rw [hstal, hheap, swap_heap, swap_heap,
        Equiv.swap_apply_of_ne_of_ne (by omega) (by omega),
        Equiv.swap_apply_of_ne_of_ne (by omega) (by omega)]
      exact ho i hi2 (by omega)
    · intro i _ _ _ hk
      simp [root] at hk
  · intro k hk
    rw [inQueue_iff_mem_keys] at hk
    have hk1 := f6.subset hk
    rw [← inQueue_iff_mem_keys] at hk1
    obtain ⟨i, hi1, hin, hik⟩ := hk1
    show (percolate s1 root).stories.has k = true
    unfold percolate
    rw [f2, hstor]
    apply hs
    rw [inQueue_iff_mem_keys]
    apply hkeys.subset
    rw [← inQueue_iff_mem_keys]
    exact ⟨i, hi1, by rw [feed_swap_n]; omega, by rw [← hheap]; exact hik⟩


/-- Effect of `reweight` on a headline of the queue: the invariant is kept, the
priority map is updated at that headline only, and the queue holds the same
headlines. -/
theorem reweight_spec (s : NewsFeed) (k : Headline) (p : Staleness) (hinv : Inv s)
    (hq : InQueue s k) :
    Inv (s.reweight k p) ∧ (s.reweight k p).staleness = s.staleness.add k p ∧
      (s.reweight k p).keys.Perm s.keys ∧ (s.reweight k p).n = s.n ∧
      (s.reweight k p).stories = s.stories := by
  obtain ⟨ho, ⟨hd, hl⟩, hs⟩ := hinv
  obtain ⟨c, hc1, hcn, hck⟩ := hq
  have hloc : s.locations.get k = c := by rw [← hck]; exact hl c hc1 hcn
  generalize hs1 : ({ s with staleness := s.staleness.add k p } : NewsFeed) = s1
  have hn1 : s1.n = s.n := by rw [← hs1]
  have hheap : s1.heap = s.heap := by rw [← hs1]
  have hstal : s1.staleness = s.staleness.add k p := by rw [← hs1]
  have hstor : s1.stories = s.stories := by rw [← hs1]
  have hpos1 : PositionIndexed s1 := by rw [← hs1]; exact ⟨hd, hl⟩
  have hwc : s1.weight (s1.heap c) = p := by
    unfold weight; rw [hstal, hheap, hck, DictHash.get_add, if_pos rfl]
  have hwo : ∀ i, 1 ≤ i → i ≤ s.n → i ≠ c → s1.weight (s1.heap i) = s.weight (s.heap i) := by
    intro i hi1 hin hic
    unfold weight
    rw [hstal, hheap, DictHash.get_add, if_neg]
    intro hik
    exact hic (hd i c hi1 hin hc1 hcn (hik.trans hck.symm))
  have hwk : s.weight k = s.weight (s.heap c) := by rw [hck]
  have hfin : ∀ t : NewsFeed, Shuffled s1 t → HeapOrdered t →
      Inv t ∧ t.staleness = s.staleness.add k p ∧ t.keys.Perm s.keys ∧ t.n = s.n ∧
        t.stories = s.stories := by
    intro t hsh hot
    obtain ⟨f1, f2, f3, _, _, f6, f7⟩ := hsh.frame
    have hk1 : s1.keys = s.keys := by unfold keys; rw [hn1, hheap]
    refine ⟨⟨hot, f7 hpos1, ?_⟩, by rw [f3, hstal], by rw [← hk1]; exact f6,
      by rw [f1, hn1], by rw [f2, hstor]⟩
    intro x hx
    rw [inQueue_iff_mem_keys] at hx
    have hx1 := f6.subset hx
    rw [hk1, ← inQueue_iff_mem_keys] at hx1
    rw [f2, hstor]
    exact hs x hx1
  have hr : s.reweight k p =
      if p < s.weight k then s1.bubble c
      else if s.weight k < p then s1.percolate c
      else s1 := by
    unfold reweight
    simp only [hs1]
    rw [hloc]
  rw [hr]
  split_ifs with hlt hgt
  · apply hfin _ (bubbleLoop_shuffled c s1 c (by omega))
    rw [heapOrdered_iff_abs, bubbleLoop_abs _ _ _ (by omega)]
    apply PQHeap.bubbleLoop_heapOrdered _ _ _ (le_refl _)
    refine ⟨hc1, by show c ≤ s1.n; omega, ?_, ?_⟩
    · intro i hi2 hin hic
      have hin' : i ≤ s1.n := hin
      show s1.weight (s1.heap (i / 2)) ≤ s1.weight (s1.heap i)
      rw [hwo i (by omega) (by omega) hic]
      by_cases hpar : i / 2 = c
      · rw [hpar, hwc]
        have := ho i hi2 (by omega)
        rw [hpar, ← hwk] at this
        exact le_trans (le_of_lt hlt) this
      · rw [hwo (i / 2) (by omega) (by omega) hpar]
        exact ho i hi2 (by omega)
    · intro i hi2 hin hpar hc2
      have hin' : i ≤ s1.n := hin
      show s1.weight (s1.heap (c / 2)) ≤ s1.weight (s1.heap i)
      rw [hwo i (by omega) (by omega) (by omega), hwo (c / 2) (by omega) (by omega) (by omega)]
      have h1 := ho c hc2 hcn
      have h2 := ho i hi2 (by omega)
      rw [hpar] at h2
      exact le_trans h1 h2
  · apply hfin _ (percolateLoop_shuffled s1.n s1 c)
    rw [heapOrdered_iff_abs, PQHeap.heapOrdered_iff_orderedFrom, percolateLoop_abs]
    apply PQHeap.percolateLoop_orderedFrom 1 _ _ _ (by show s1.n + 1 ≤ s1.n + c; omega)
    refine ⟨le_refl _, hc1, ?_, ?_⟩
    · intro i hi2 hin _ hpar
      have hin' : i ≤ s1.n := hin
      show s1.weight (s1.heap (i / 2)) ≤ s1.weight (s1.heap i)
      rw [hwo (i / 2) (by omega) (by omega) hpar]
      by_cases hic : i = c
      · subst hic
        rw [hwc]
        have := ho i hi2 (by omega)
        rw [← hwk] at this
        exact le_trans this (le_of_lt hgt)
      · rw [hwo i (by omega) (by omega) hic]
        exact ho i hi2 (by omega)
    · intro i hi2 hin hpar hc2
      have hin' : i ≤ s1.n := hin
      show s1.weight (s1.heap (c / 2)) ≤ s1.weight (s1.heap i)
      rw [hwo i (by omega) (by omega) (by omega), hwo (c / 2) (by omega) (by omega) (by omega)]
      have h1 := ho c (by omega) hcn
      have h2 := ho i hi2 (by omega)
      rw [hpar] at h2
      exact le_trans h1 h2
  · apply hfin _ (Shuffled.refl s1)
    have hpw : p = s.weight (s.heap c) := by
      rw [← hwk]; exact le_antisymm (not_lt.mp hgt) (not_lt.mp hlt)
    have hw : ∀ i, 1 ≤ i → i ≤ s.n → s1.weight (s1.heap i) = s.weight (s.heap i) := by
      intro i hi1 hin
      by_cases hic : i = c
      · subst hic; rw [hwc]; exact hpw
      · exact hwo i hi1 hin hic
    intro i hi2 hin
    rw [hn1] at hin
    rw [hw i (by omega) hin, hw (i / 2) (by omega) (by omega)]
    exact ho i hi2 hin

theorem reachable_inv (s : NewsFeed) (hr : Reachable s) : Inv s := by
  induction hr with
  | new => exact new_inv
  | enqueue s s' h st w _ he ih => exact enqueue_inv s s' h st w he ih
  | dequeue s s' _ hd ih => exact dequeue_inv s s' hd ih
  | reweight s k p _ hq ih => exact (reweight_spec s k p ih hq).1

/-- In a state satisfying the invariant the root weighs no more than any
queued headline. -/
theorem peek_min (s : NewsFeed) (hinv : Inv s) (k : Headline) (hq : InQueue s k) :
    s.weight s.peek ≤ s.weight k := by
  obtain ⟨i, h1, hn, rfl⟩ := hq
  exact PQHeap.root_le_of_heapOrdered s.abs hinv.1 i h1 hn


theorem weight_congr (s t : NewsFeed) (h : t.staleness = s.staleness) (k : Headline) :
    t.weight k = s.weight k := by
  unfold weight; rw [h]

theorem enqueue_fresh (s : NewsFeed) (h : Headline) (st : Story) (w : Staleness)
    (hf : s.stories.has h = false) : ∃ s', s.enqueue h st w = .ok s' := by
  simp [enqueue, hf]

theorem enqueue_spec (s s' : NewsFeed) (h : Headline) (st : Story) (w : Staleness)
    (he : s.enqueue h st w = .ok s') :
    s'.n = s.n + 1 ∧ s'.keys.Perm (h :: s.keys) ∧ s'.staleness = s.staleness.add h w ∧
      s'.stories = s.stories.add h st := by
  obtain ⟨_, s4, rfl, hn4, hst, hw, _, hlast, hold⟩ := enqueue_shape s s' h st w he
  obtain ⟨f1, f2, f3, _, _, f6, _⟩ := (bubbleLoop_shuffled (s.n + 1) s4 (s.n + 1) (by omega)).frame
  refine ⟨by rw [f1, hn4], f6.trans ?_, by rw [f3, hw], by rw [f2, hst]⟩
  unfold keys
  rw [hn4, map_range_succ, hlast, map_range_congr s4.heap s.heap s.n hold]
  exact List.perm_append_singleton h _

theorem dequeue_spec (s s' : NewsFeed) (hdq : s.dequeue = .ok s') :
    s.n ≠ 0 ∧ s'.n = s.n - 1 ∧ s.keys.Perm (s.peek :: s'.keys) ∧
      s'.staleness = s.staleness ∧ s'.stories = s.stories := by
  obtain ⟨hn, rfl⟩ := dequeue_shape s s' hdq
  obtain ⟨f1, f2, f3, _, _, f6, _⟩ :=
    (percolateLoop_shuffled (s.n - 1) { s.swap root s.n with n := s.n - 1 } root).frame
  refine ⟨hn, f1, ?_, f3, f2⟩
  refine List.Perm.trans ?_ (List.Perm.cons _ f6.symm)
  refine (swap_keys s 1 s.n (le_refl _) (by omega) (by omega) (le_refl _)).symm.trans ?_
  unfold keys peek
  obtain ⟨m, hm⟩ : ∃ m, s.n = m + 1 := ⟨s.n - 1, by omega⟩
  simp only [feed_swap_n, root, hm, Nat.add_sub_cancel]
  rw [map_range_succ, ← hm, feed_swap_heap_right]
  exact List.perm_append_singleton _ _

theorem keys_nodup (s : NewsFeed) (hp : PositionIndexed s) : s.keys.Nodup := by
  unfold keys
  apply List.Nodup.map_on _ (List.nodup_range' 1 s.n)
  intro i hi j hj hij
  rw [List.mem_range'_1] at hi hj
  exact hp.1 i j hi.1 (by omega) hj.1 (by omega) hij

theorem reachable_enqueueAll :
    ∀ (l : List (Headline × Story × Staleness)) (s s' : NewsFeed),
      Reachable s → enqueueAll s l = .ok s' → Reachable s'
  | [], s, s', hr, he => by
    simp only [enqueueAll, Except.ok.injEq] at he
    subst he; exact hr
  | (h, st, w) :: rest, s, s', hr, he => by
    simp only [enqueueAll] at he
    cases hq : s.enqueue h st w with
    | error e => rw [hq] at he; simp at he
    | ok s1 =>
      rw [hq] at he
      exact reachable_enqueueAll rest s1 s' (Reachable.enqueue s s1 h st w hr hq) he

/-- Enqueuing triples whose headlines are pairwise distinct and not yet
tracked succeeds, adds exactly these headlines to the queue, and gives each its
own priority. -/
theorem feed_enqueueAll_spec :
    ∀ (l : List (Headline × Story × Staleness)) (s : NewsFeed),
      (l.map (·.1)).Nodup → (∀ t ∈ l, s.stories.has t.1 = false) →
      ∃ s', enqueueAll s l = .ok s' ∧ s'.keys.Perm (l.map (·.1) ++ s.keys) ∧
        (∀ t ∈ l, s'.weight t.1 = t.2.2) ∧
        (∀ k, k ∉ l.map (·.1) → s'.weight k = s.weight k)
  | [], s, _, _ => ⟨s, rfl, List.Perm.refl _, by simp, fun _ _ => rfl⟩
  | (h, st, w) :: rest, s, hnd, hfresh => by
    obtain ⟨s1, he⟩ := enqueue_fresh s h st w (hfresh (h, st, w) (List.mem_cons_self _ _))
    obtain ⟨_, hk1, hw1, hs1⟩ := enqueue_spec s s1 h st w he
    simp only [List.map_cons, List.nodup_cons] at hnd
    have hfresh1 : ∀ t ∈ rest, s1.stories.has t.1 = false := by
      intro t ht
      have h1 := hfresh t (List.mem_cons_of_mem _ ht)
      have h2 : t.1 ≠ h := fun heq => hnd.1 (heq ▸ List.mem_map_of_mem (·.1) ht)
      cases hb : s1.stories.has t.1 with
      | false => rfl
      | true =>
        rw [hs1, DictHash.has_add] at hb
        rcases hb with hb | hb
        · exact absurd hb h2
        · rw [h1] at hb; exact absurd hb Bool.false_ne_true
    obtain ⟨s', he', hk', hw', hframe⟩ := feed_enqueueAll_spec rest s1 hnd.2 hfresh1
    refine ⟨s', by simp only [enqueueAll, he]; exact he', ?_, ?_, ?_⟩
    · refine hk'.trans ?_
      refine (List.Perm.append_left _ hk1).trans ?_
      simp only [List.map_cons, List.cons_append]
      exact List.perm_middle
    · intro t ht
      rcases List.mem_cons.mp ht with rfl | ht
      · show s'.weight h = w
        rw [hframe h hnd.1]
        unfold weight
        rw [hw1, DictHash.get_add, if_pos rfl]
      · exact hw' t ht
    · intro k hk
      simp only [List.map_cons, List.mem_cons, not_or] at hk
      rw [hframe k hk.2]
      unfold weight
      rw [hw1, DictHash.get_add, if_neg hk.1]

theorem keys_nil (s : NewsFeed) (hn : s.n = 0) : s.keys = [] := by
  simp [keys, hn]

theorem feed_drainLoop_step (fuel : Nat) (s : NewsFeed) (hn : s.n ≠ 0) :
    drainLoop (fuel + 1) s =
      s.peek :: drainLoop fuel (percolate { s.swap root s.n with n := s.n - 1 } root) := by
  simp [drainLoop, dequeue, empty, hn]

/-- Draining a feed that satisfies the invariant returns each queued headline
once, in nondecreasing order of priority. -/
theorem feed_drainLoop_spec :
    ∀ (fuel : Nat) (s : NewsFeed), s.n ≤ fuel → Inv s →
      (drainLoop fuel s).Perm s.keys ∧ ((drainLoop fuel s).map s.weight).Sorted (· ≤ ·)
  | 0, s, hf, _ => by
    rw [keys_nil s (by omega)]
    exact ⟨List.Perm.refl _, List.sorted_nil⟩
  | fuel + 1, s, hf, hinv => by
    by_cases hn : s.n = 0
    · rw [keys_nil s hn]
      simp [drainLoop, empty, hn]
    · rw [feed_drainLoop_step fuel s hn]
      have hd := feed_dequeue_ok s hn
      generalize percolate { s.swap root s.n with n := s.n - 1 } root = s' at hd
      obtain ⟨_, hn', hperm, hstal, _⟩ := dequeue_spec s s' hd
      obtain ⟨ihp, ihs⟩ := feed_drainLoop_spec fuel s' (by omega) (dequeue_inv s s' hd hinv)
      refine ⟨(List.Perm.cons _ ihp).trans hperm.symm, ?_⟩
      have hw : s'.weight = s.weight := funext (weight_congr s s' hstal)
      rw [hw] at ihs
      rw [List.map_cons, List.sorted_cons]
      refine ⟨?_, ihs⟩
      intro b hb
      obtain ⟨x, hx, rfl⟩ := List.mem_map.mp hb
      apply peek_min s hinv
      rw [inQueue_iff_mem_keys]
      exact hperm.symm.subset (List.mem_cons_of_mem _ (ihp.subset hx))

theorem abc_eq :
    enqueueAll NewsFeed.new [("A", "a", 10), ("B", "b", 20), ("C", "c", 30)] = .ok abc := rfl

theorem abc_reachable : Reachable abc :=
  reachable_enqueueAll _ _ _ Reachable.new abc_eq

theorem abc_inQueue_B : InQueue abc "B" := ⟨2, by decide, by decide, by decide⟩

end NewsFeed
namespace PQHeap

variable {α : Type}

/-- The loop equation of the draining loop. -/
theorem drain_eq [LinearOrder α] (h : PQHeap α) :
    h.drain =
      if h.empty then []
      else
        match h.peek, h.dequeue with
        | .ok x, .ok h' => x :: h'.drain
        | _, _ => [] := by
  by_cases hn : h.n = 0
  · simp [drain, drainLoop, empty, hn]
  · obtain ⟨m, hm⟩ : ∃ m, h.n = m + 1 := ⟨h.n - 1, by omega⟩
    have hd := dequeue_ok h hn
    generalize percolate { h.swap root h.n with n := h.n - 1 } root = h' at hd
    have hn' := (dequeue_n h h' hd).2
    have he : h.empty = false := by simp [empty, hn]
    have hp : h.peek = .ok (h.heap root) := by simp [peek, he]
    have hl : h.drain = if h.empty then [] else
        match h.peek, h.dequeue with
        | .ok x, .ok h' => x :: drainLoop m h'
        | _, _ => [] := by
      unfold drain; rw [hm]; rfl
    rw [hl, he, hp, hd]
    have hm' : h'.n = m := by omega
    simp only [drain, hm']

end PQHeap

namespace NewsFeed

/-- One more unit of fuel does not change the result of the `bubble` loop. -/
theorem feed_bubbleLoop_succ :
    ∀ (fuel : Nat) (s : NewsFeed) (child : Nat), child ≤ fuel →
      bubbleLoop (fuel + 1) s child = bubbleLoop fuel s child
  | 0, s, child, hf => by
    have h0 : child = 0 := by omega
    subst h0
    simp [bubbleLoop, is_root, valid, parent]
  | fuel + 1, s, child, hf => by
    rw [feed_bubbleLoop_step (fuel + 1) s child, feed_bubbleLoop_step fuel s child]
    split_ifs with hc
    · exact feed_bubbleLoop_succ fuel _ _ (by unfold parent; omega)
    · rfl

/-- Any fuel of at least `child` gives the result of `bubble`. -/
theorem feed_bubbleLoop_fuel :
    ∀ (fuel : Nat) (s : NewsFeed) (child : Nat), child ≤ fuel →
      bubbleLoop fuel s child = s.bubble child
  | 0, s, child, hf => by
    have h0 : child = 0 := by omega
    subst h0; rfl
  | fuel + 1, s, child, hf => by
    by_cases hcf : child = fuel + 1
    · subst hcf; rfl
    · rw [feed_bubbleLoop_succ fuel s child (by omega)]
      exact feed_bubbleLoop_fuel fuel s child (by omega)

/-- The loop equation of `bubble` in the source. -/
theorem feed_bubble_eq (s : NewsFeed) (child : Nat) :
    s.bubble child =
      if !s.is_root child && decide (s.value child < s.value (parent child)) then
        (s.swap child (parent child)).bubble (parent child)
      else s := by
  cases child with
  | zero => simp [bubble, bubbleLoop, is_root, valid, parent]
  | succ c =>
    show bubbleLoop (c + 1) s (c + 1) = _
    rw [feed_bubbleLoop_step]
    split_ifs with hc
    · exact feed_bubbleLoop_fuel c _ _ (by unfold parent; omega)
    · rfl

theorem feed_lt_smallerChild (s : NewsFeed) (p : Nat) (hl : (!s.is_leaf p) = true) :
    p + 1 ≤ s.smallerChild p := by
  rw [leaf_eq] at hl
  rw [smallerChild_eq]
  exact PQHeap.lt_smallerChild s.abs p hl

/-- One more unit of fuel does not change the result of the `percolate` loop. -/
theorem feed_percolateLoop_succ :
    ∀ (fuel : Nat) (s : NewsFeed) (p : Nat), s.n + 1 ≤ fuel + p →
      percolateLoop (fuel + 1) s p = percolateLoop fuel s p
  | 0, s, p, hf => by
    have hl : s.is_leaf p = true := by
      simp [is_leaf, valid, left]; omega
    simp [percolateLoop, hl]
  | fuel + 1, s, p, hf => by
    rw [feed_percolateLoop_step (fuel + 1) s p, feed_percolateLoop_step fuel s p]
    split_ifs with hl hv
    · rfl
    · have hp := feed_lt_smallerChild s p hl
      exact feed_percolateLoop_succ fuel _ _ (by rw [feed_swap_n]; omega)
    · rfl

/-- Any fuel of at least `n` gives the result of `percolate`. -/
theorem feed_percolateLoop_fuel :
    ∀ (fuel : Nat) (s : NewsFeed) (p : Nat), s.n ≤ fuel →
      percolateLoop fuel s p = s.percolate p
  | 0, s, p, hf => by
    have h0 : s.n = 0 := by omega
    unfold percolate; rw [h0]
  | fuel + 1, s, p, hf => by
    by_cases hcf : s.n = fuel + 1
    · unfold percolate; rw [hcf]
    · by_cases hp : p = 0
      · subst hp
        have hl : s.is_leaf 0 = true := by simp [is_leaf, valid, left]
        rw [feed_percolateLoop_step]
        unfold percolate
        cases s.n with
        | zero => simp [percolateLoop, hl]
        | succ m => simp [percolateLoop, hl]
      · rw [feed_percolateLoop_succ fuel s p (by omega)]
        exact feed_percolateLoop_fuel fuel s p (by omega)

/-- The loop equation of `percolate` in the source. -/
theorem feed_percolate_eq (s : NewsFeed) (p : Nat) :
    s.percolate p =
      if !s.is_leaf p then
        if s.value p ≤ s.value (s.smallerChild p) then s
        else (s.swap (s.smallerChild p) p).percolate (s.smallerChild p)
      else s := by
  by_cases hl : (!s.is_leaf p) = true
  · rw [← feed_percolateLoop_fuel (s.n + 1) s p (by omega), feed_percolateLoop_step]
    rw [if_pos hl, if_pos hl]
    split_ifs with hv
    · rfl
    · exact feed_percolateLoop_fuel _ _ _ (by rw [feed_swap_n])
  · rw [← feed_percolateLoop_fuel (s.n + 1) s p (by omega), feed_percolateLoop_step]
    rw [if_neg hl, if_neg hl]

/-- The loop equation of the draining loop. -/
theorem feed_drain_eq (s : NewsFeed) :
    s.drain =
      if s.empty then []
      else
        match s.dequeue with
        | .ok s' => s.peek :: s'.drain
        | .error _ => [] := by
  by_cases hn : s.n = 0
  · simp [drain, drainLoop, empty, hn]
  · obtain ⟨m, hm⟩ : ∃ m, s.n = m + 1 := ⟨s.n - 1, by omega⟩
    have hd := feed_dequeue_ok s hn
    generalize percolate { s.swap root s.n with n := s.n - 1 } root = s' at hd
    have hn' := (dequeue_spec s s' hd).2.1
    have he : s.empty = false := by simp [empty, hn]
    have hl : s.drain = if s.empty then [] else
        match s.dequeue with
        | .ok s' => s.peek :: drainLoop m s'
        | .error _ => [] := by
      unfold drain; rw [hm]; rfl
    rw [hl, he, hd]
    have hm' : s'.n = m := by omega
    simp only [drain, hm']

end NewsFeed

namespace PQHeap

variable {α : Type}

theorem bubbleLoop_capacity [LinearOrder α] :
    ∀ (fuel : Nat) (h : PQHeap α) (c : Nat), (bubbleLoop fuel h c).capacity = h.capacity
  | 0, _, _ => rfl
  | fuel + 1, h, c => by
    rw [bubbleLoop_step]
    split_ifs
    · rw [bubbleLoop_capacity fuel]; rfl
    · rfl

theorem enqueue_capacity [LinearOrder α] [Inhabited α] (h : PQHeap α) (v : α) :
    (h.enqueue v).capacity = if h.n = h.capacity then 2 * h.capacity + 17 else h.capacity := by
  unfold enqueue bubble
  rw [bubbleLoop_capacity]
  unfold push grow
  split_ifs <;> rfl

theorem percolate_n [LinearOrder α] (h : PQHeap α) (p : Nat) : (h.percolate p).n = h.n := by
  unfold percolate
  rw [percolateLoop_n]

/-- The bottom-up loop of the bulk constructor: started at `i` on a state that
is ordered on the edges whose parent is above `i`, it ends in an ordered
heap with the same `n`. -/
theorem heapifyLoop_spec [LinearOrder α] :
    ∀ (i : Nat) (h : PQHeap α), OrderedFrom (i + 1) h →
      HeapOrdered (heapifyLoop i h) ∧ (heapifyLoop i h).n = h.n
  | 0, h, ho => ⟨(heapOrdered_iff_orderedFrom h).mpr ho, rfl⟩
  | i + 1, h, ho => by
    have hstep : OrderedFrom (i + 1) (h.percolate (i + 1)) := by
      unfold percolate
      by_cases hin : i + 1 ≤ h.n
      · apply percolateLoop_orderedFrom (i + 1) _ _ _ (by omega)
        refine ⟨by omega, le_refl _, ?_, ?_⟩
        · intro j hj2 hjn hk hne
          exact ho j hj2 hjn (by omega)
        · intro j _ _ _ hk
          omega
      · have hfix : ∀ (fuel : Nat), percolateLoop fuel h (i + 1) = h := by
          intro fuel
          cases fuel with
          | zero => rfl
          | succ f =>
            have hl : h.is_leaf (i + 1) = true := by
              simp [is_leaf, valid, left]; omega
            rw [percolateLoop_step]
            simp [hl]
        rw [hfix]
        intro j hj2 hjn hk
        omega
    obtain ⟨h1, h2⟩ := heapifyLoop_spec i (h.percolate (i + 1)) hstep
    exact ⟨h1, by rw [show heapifyLoop (i + 1) h = heapifyLoop i (h.percolate (i + 1)) from rfl,
      h2, percolate_n]⟩

theorem ofList_n [LinearOrder α] [Inhabited α] (list : List α) :
    (ofList list).n = list.length ∧ HeapOrdered (ofList list) := by
  unfold ofList
  have hstart : OrderedFrom
      (({ heap := fun i => if i < list.length then list.getD i default else default,
          n := list.length, capacity := list.length,
          alloc := list.length + 1 } : PQHeap α).n / 2 + 1)
      ({ heap := fun i => if i < list.length then list.getD i default else default,
          n := list.length, capacity := list.length,
          alloc := list.length + 1 } : PQHeap α) := by
    intro j hj2 hjn hk
    simp only at hjn hk
    omega
  obtain ⟨h1, h2⟩ := heapifyLoop_spec _ _ hstart
  exact ⟨h2, h1⟩

end PQHeap

namespace PQHeap

variable {α : Type}

theorem SameQueue.swap {a b : PQHeap α} (hab : SameQueue a b) (i j : Nat)
    (hi1 : 1 ≤ i) (hin : i ≤ a.n) (hj1 : 1 ≤ j) (hjn : j ≤ a.n) :
    SameQueue (a.swap i j) (b.swap i j) := by
  refine ⟨hab.1, ?_⟩
  intro k hk1 hkn
  rw [swap_n] at hkn
  simp only [PQHeap.swap]
  split_ifs
  · exact hab.2 j hj1 hjn
  · exact hab.2 i hi1 hin
  · exact hab.2 k hk1 hkn

/-- The `bubble` loop reads and writes occupied slots only: on two states that
hold the same queue it ends in two states that hold the same queue. -/
theorem bubbleLoop_sameQueue [LinearOrder α] :
    ∀ (fuel : Nat) (a b : PQHeap α) (c : Nat), 1 ≤ c → c ≤ a.n → SameQueue a b →
      SameQueue (bubbleLoop fuel a c) (bubbleLoop fuel b c)
  | 0, _, _, _, _, _, hab => hab
  | fuel + 1, a, b, c, hc1, hcn, hab => by
    have hcond : (!is_root c && decide (a.value c < a.value (parent c))) =
        (!is_root c && decide (b.value c < b.value (parent c))) := by
      by_cases h1 : c = 1
      · subst h1; simp [is_root, root]
      · have e1 : a.value c = b.value c := hab.2 c hc1 hcn
        have e2 : a.value (parent c) = b.value (parent c) :=
          hab.2 (c / 2) (by omega) (by omega)
        rw [e1, e2]
    rw [bubbleLoop_step, bubbleLoop_step, hcond]
    split_ifs with hc
    · simp only [Bool.and_eq_true, Bool.not_eq_true', is_root, beq_eq_false_iff_ne, ne_eq,
        root] at hc
      exact bubbleLoop_sameQueue fuel _ _ _ (by unfold parent; omega)
        (by rw [swap_n]; unfold parent; omega)
        (hab.swap c (parent c) hc1 hcn (by unfold parent; omega) (by unfold parent; omega))
    · exact hab

end PQHeap

namespace NewsFeed

theorem bubbleLoop_stories :
    ∀ (fuel : Nat) (s : NewsFeed) (c : Nat), (bubbleLoop fuel s c).stories = s.stories
  | 0, _, _ => rfl
  | fuel + 1, s, c => by
    rw [feed_bubbleLoop_step]
    split_ifs
    · rw [bubbleLoop_stories fuel]; rfl
    · rfl

theorem percolateLoop_stories :
    ∀ (fuel : Nat) (s : NewsFeed) (p : Nat), (percolateLoop fuel s p).stories = s.stories
  | 0, _, _ => rfl
  | fuel + 1, s, p => by
    rw [feed_percolateLoop_step]
    split_ifs
    · rfl
    · rw [percolateLoop_stories fuel]; rfl
    · rfl

theorem reweight_stories (s : NewsFeed) (k : Headline) (p : Staleness) :
    (s.reweight k p).stories = s.stories := by
  unfold reweight bubble percolate
  simp only
  split_ifs
  · rw [bubbleLoop_stories]
  · rw [percolateLoop_stories]
  · rfl

/-- The story of a tracked headline survives every later call. -/
theorem steps_get (s t : NewsFeed) (hst : Steps s t) (k : Headline) (payload : Story)
    (hk : s.stories.has k = true) (hg : s.get k = payload) :
    t.stories.has k = true ∧ t.get k = payload := by
  induction hst with
  | refl => exact ⟨hk, hg⟩
  | enqueue t t' h st w _ he ih =>
    obtain ⟨ih1, ih2⟩ := ih
    have hfresh := (enqueue_shape t t' h st w he).1
    have hne : k ≠ h := by
      intro heq
      rw [heq, hfresh] at ih1
      exact Bool.false_ne_true ih1
    obtain ⟨_, _, _, hstor⟩ := enqueue_spec t t' h st w he
    refine ⟨by rw [hstor, DictHash.has_add]; exact Or.inr ih1, ?_⟩
    unfold get
    rw [hstor, DictHash.get_add, if_neg hne]
    exact ih2
  | dequeue t t' _ hd ih =>
    obtain ⟨_, _, _, _, hstor⟩ := dequeue_spec t t' hd
    unfold get
    rw [hstor]
    exact ih
  | reweight t h w _ _ ih =>
    unfold get
    rw [reweight_stories]
    exact ih

theorem enqueue_get (s s' : NewsFeed) (k : Headline) (payload : Story) (w : Staleness)
    (he : s.enqueue k payload w = .ok s') :
    s'.stories.has k = true ∧ s'.get k = payload := by
  obtain ⟨_, _, _, hstor⟩ := enqueue_spec s s' k payload w he
  refine ⟨by rw [hstor, DictHash.has_add]; exact Or.inl rfl, ?_⟩
  unfold get
  rw [hstor, DictHash.get_add, if_pos rfl]

/-- On priorities, `enqueue` of a fresh headline is `PQHeap::enqueue`. -/
theorem enqueue_abs (s s' : NewsFeed) (k : Headline) (st : Story) (p : Staleness)
    (hinv : Inv s) (he : s.enqueue k st p = .ok s') :
    PQHeap.SameQueue s'.abs (s.abs.enqueue p) := by
  obtain ⟨_, _, hs⟩ := hinv
  obtain ⟨hnew, s4, rfl, hn4, _, hw, _, hlast, hold⟩ := enqueue_shape s s' k st p he
  have hK : ∀ i, 1 ≤ i → i ≤ s.n → s.heap i ≠ k := by
    intro i h1 h2 hi
    have := hs k ⟨i, h1, h2, hi⟩
    rw [hnew] at this
    exact Bool.false_ne_true this
  rw [bubbleLoop_abs _ _ _ (by omega)]
  have hgn : s.abs.grow.n = s.n := PQHeap.grow_n s.abs
  have hpn : (s.abs.grow.push p).n = s.n + 1 := by
    show s.abs.grow.n + 1 = s.n + 1
    rw [hgn]
  unfold PQHeap.enqueue PQHeap.bubble
  simp only [hpn]
  apply PQHeap.bubbleLoop_sameQueue _ _ _ _ (by omega) (by show s.n + 1 ≤ s4.n; omega)
  refine ⟨by show s4.n = _; rw [hn4, hpn], ?_⟩
  intro i hi1 hin
  have hin' : i ≤ s4.n := hin
  show s4.weight (s4.heap i) = if i = s.abs.grow.n + 1 then p else s.abs.grow.heap i
  rw [hgn]
  unfold weight
  rw [hw, DictHash.get_add]
  by_cases hi : i = s.n + 1
  · subst hi
    rw [hlast, if_pos rfl, if_pos rfl]
  · rw [hold i hi1 (by omega), if_neg (hK i hi1 (by omega)), if_neg hi,
      PQHeap.grow_heap s.abs i hi1 (by show i ≤ s.n; omega)]
    rfl

/-- On priorities, `dequeue` is `PQHeap::dequeue`. -/
theorem dequeue_abs (s s' : NewsFeed) (hd : s.dequeue = .ok s') :
    s.abs.dequeue = .ok s'.abs := by
  obtain ⟨hn, rfl⟩ := dequeue_shape s s' hd
  rw [PQHeap.dequeue_ok s.abs hn]
  unfold percolate PQHeap.percolate
  rw [percolateLoop_abs]
  have h1 : ({ s.swap root s.n with n := s.n - 1 } : NewsFeed).abs =
      { s.abs.swap PQHeap.root s.abs.n with n := s.abs.n - 1 } := by
    show ({ (s.swap root s.n).abs with n := s.n - 1 } : PQHeap Int) = _
    rw [abs_swap]
    rfl
  rw [h1]
  rfl

theorem nine_eq : enqueueAll NewsFeed.new nineStories = .ok nine := rfl

theorem nine_reachable : Reachable nine :=
  reachable_enqueueAll _ _ _ Reachable.new nine_eq

theorem abDequeued_reachable : Reachable abDequeued :=
  Reachable.dequeue (after (enqueueAll NewsFeed.new [("A", "a", 10), ("B", "b", 20)])) _
    (reachable_enqueueAll [("A", "a", 10), ("B", "b", 20)] _ _ Reachable.new rfl) rfl

end NewsFeed

namespace PQHeap

variable {α : Type}

/-- A checked `enqueue` that returns, returns what the unchecked one computes
on the value of the referent. -/
theorem enqueueChecked_ok [LinearOrder α] [Inhabited α] (h h' : PQHeap α) (d : Datum α)
    (he : h.enqueueChecked d = .ok h') : h' = h.enqueue (h.datum d) := by
  cases d with
  | object v =>
    simp only [enqueueChecked] at he
    split_ifs at he with h1 h2
    injection he with he
    exact he.symm
  | slot i =>
    simp only [enqueueChecked] at he
    split_ifs at he with h1 h2 h3 h4
    injection he with he
    have hg : h.grow.heap i = h.heap i := by unfold grow; rw [if_neg h2]
    rw [hg] at he
    exact he.symm

/-- With an argument outside the buffer, the checked `enqueue` returns exactly
when the reads of `resize()` and the write of slot `n + 1` are in bounds. -/
theorem enqueueChecked_object [LinearOrder α] [Inhabited α] (h : PQHeap α) (v : α)
    (hr : h.n = h.capacity → ∀ i ∈ h.resizeReads, i < h.alloc)
    (hw : h.grow.n + 1 < h.grow.alloc) :
    h.enqueueChecked (.object v) = .ok (h.enqueue v) := by
  unfold enqueueChecked
  rw [if_neg (fun hc => hc.2 (hr hc.1))]
  simp only
  rw [if_pos hw]
  rfl

end PQHeap

namespace NewsFeed

theorem bubbleLoop_alloc :
    ∀ (fuel : Nat) (s : NewsFeed) (c : Nat),
      (bubbleLoop fuel s c).alloc = s.alloc ∧ (bubbleLoop fuel s c).capacity = s.capacity
  | 0, _, _ => ⟨rfl, rfl⟩
  | fuel + 1, s, c => by
    rw [feed_bubbleLoop_step]
    split_ifs
    · exact bubbleLoop_alloc fuel _ _
    · exact ⟨rfl, rfl⟩

theorem record_grow (s : NewsFeed) (h : Headline) (st : Story) (w : Staleness) :
    (s.record h st w).grow.n = s.n ∧ (s.record h st w).grow.alloc = s.grow.alloc ∧
      (s.record h st w).grow.capacity = s.grow.capacity := by
  unfold grow record
  simp only
  split_ifs <;> exact ⟨rfl, rfl, rfl⟩

theorem enqueue_alloc (s s' : NewsFeed) (h : Headline) (st : Story) (w : Staleness)
    (he : s.enqueue h st w = .ok s') :
    s'.alloc = s.grow.alloc ∧ s'.capacity = s.grow.capacity := by
  by_cases hh : s.stories.has h = true
  · simp [enqueue, hh] at he
  · have hf : s.stories.has h = false := by simpa using hh
    simp only [enqueue, hf, Bool.false_eq_true, if_false, Except.ok.injEq] at he
    subst he
    unfold bubble
    obtain ⟨h1, h2⟩ := bubbleLoop_alloc (((s.record h st w).grow).append h).n
      (((s.record h st w).grow).append h) (((s.record h st w).grow).append h).n
    obtain ⟨_, g2, g3⟩ := record_grow s h st w
    exact ⟨by rw [h1]; exact g2, by rw [h2]; exact g3⟩

/-- A checked `enqueue` that returns, returns what the unchecked one does, and
its array accesses were in bounds. -/
theorem feed_enqueueChecked_ok (s s' : NewsFeed) (h : Headline) (st : Story) (w : Staleness)
    (he : s.enqueueChecked h st w = .ok s') :
    s.enqueue h st w = .ok s' ∧ EnqueueInBounds s := by
  unfold enqueueChecked at he
  split_ifs at he with h1 h2 h3
  obtain ⟨g1, g2, _⟩ := record_grow s h st w
  refine ⟨?_, ?_, ?_⟩
  · have hf : s.stories.has h = false := by simpa using h1
    simp only [enqueue, hf, Bool.false_eq_true, if_false]
    simpa using he
  · intro hc
    by_contra hr
    exact h2 ⟨hc, hr⟩
  · rw [g1, g2] at h3
    exact h3

/-- The unchecked `enqueue` agrees with the code when the array accesses of the
call are in bounds. -/
theorem enqueueChecked_of_inBounds (s s' : NewsFeed) (h : Headline) (st : Story)
    (w : Staleness) (he : s.enqueue h st w = .ok s') (hb : EnqueueInBounds s) :
    s.enqueueChecked h st w = .ok s' := by
  have hf := (enqueue_shape s s' h st w he).1
  obtain ⟨g1, g2, _⟩ := record_grow s h st w
  unfold enqueueChecked
  rw [hf, if_neg Bool.false_ne_true, if_neg (fun hc => hc.2 (hb.1 hc.1)),
    if_pos (by rw [g1, g2]; exact hb.2)]
  simp only [enqueue, hf, Bool.false_eq_true, if_false] at he
  simpa using he

/-- A run of `enqueue` calls that stays below the capacity and the length of
the buffer is free of undefined behaviour; it adds one slot per call, keeps
the buffer, and tracks exactly the enqueued headlines on top of the old ones. -/
theorem enqueueAllChecked_bounded :
    ∀ (l : List (Headline × Story × Staleness)) (s s' : NewsFeed),
      enqueueAll s l = .ok s' → s.n + l.length < s.alloc → s.n + l.length ≤ s.capacity →
      enqueueAllChecked s l = .ok s' ∧ s'.n = s.n + l.length ∧ s'.alloc = s.alloc ∧
        s'.capacity = s.capacity ∧
        ∀ k, s'.stories.has k = true ↔ (k ∈ l.map (·.1) ∨ s.stories.has k = true)
  | [], s, s', he, _, _ => by
    simp only [enqueueAll, Except.ok.injEq] at he
    subst he
    exact ⟨rfl, rfl, rfl, rfl, fun k => by simp⟩
  | (h, st, w) :: rest, s, s', he, ha, hc => by
    simp only [enqueueAll] at he
    simp only [List.length_cons] at ha hc
    cases hq : s.enqueue h st w with
    | error e => rw [hq] at he; simp at he
    | ok s1 =>
      rw [hq] at he
      obtain ⟨hn1, _, _, hstor⟩ := enqueue_spec s s1 h st w hq
      have hg : s.grow = s := by unfold grow; rw [if_neg (by omega)]
      obtain ⟨ha1, hc1⟩ := enqueue_alloc s s1 h st w hq
      rw [hg] at ha1 hc1
      have hb : EnqueueInBounds s := ⟨fun hcap => by omega, by rw [hg]; omega⟩
      have hck := enqueueChecked_of_inBounds s s1 h st w hq hb
      obtain ⟨i1, i2, i3, i4, i5⟩ := enqueueAllChecked_bounded rest s1 s' he
        (by rw [hn1, ha1]; omega) (by rw [hn1, hc1]; omega)
      refine ⟨by simp only [enqueueAllChecked, hck]; exact i1,
        by rw [i2, hn1]; simp only [List.length_cons]; omega,
        by rw [i3, ha1], by rw [i4, hc1], ?_⟩
      intro k
      rw [i5 k, hstor, DictHash.has_add]
      simp only [List.map_cons, List.mem_cons]
      tauto

theorem enqueueAllChecked_append :
    ∀ (l1 l2 : List (Headline × Story × Staleness)) (s s1 : NewsFeed),
      enqueueAllChecked s l1 = .ok s1 →
      enqueueAllChecked s (l1 ++ l2) = enqueueAllChecked s1 l2
  | [], l2, s, s1, he => by
    simp only [enqueueAllChecked, Except.ok.injEq] at he
    subst he; rfl
  | (h, st, w) :: rest, l2, s, s1, he => by
    simp only [enqueueAllChecked] at he
    simp only [List.cons_append, enqueueAllChecked]
    cases hq : s.enqueueChecked h st w with
    | error e => rw [hq] at he; simp at he
    | ok s' =>
      rw [hq] at he
      exact enqueueAllChecked_append rest l2 s' s1 he

end NewsFeed

namespace NewsFeed

/-- On a feed whose buffer is full below its capacity, `enqueue` of a fresh
headline writes one slot past the end of the buffer. -/
theorem enqueueChecked_full (s : NewsFeed) (h : Headline) (st : Story) (w : Staleness)
    (hf : s.stories.has h = false) (ha : s.n + 1 = s.alloc) (hc : s.n < s.capacity) :
    s.enqueueChecked h st w = .error (.undefined (.out_of_bounds s.alloc s.alloc)) := by
  have hg : s.grow = s := by unfold grow; rw [if_neg (by omega)]
  obtain ⟨g1, g2, _⟩ := record_grow s h st w
  unfold enqueueChecked
  rw [hf, if_neg Bool.false_ne_true, if_neg (fun hcap => by omega), g1, g2, hg,
    if_neg (by omega), ha]

/-- From a fresh feed, every run of ten or more `enqueue` calls with pairwise
distinct headlines ends in the out-of-bounds write of `heap[10]`. -/
theorem enqueueAllChecked_ten (l : List (Headline × Story × Staleness))
    (hlen : 10 ≤ l.length) (hnd : (l.map (·.1)).Nodup) :
    enqueueAllChecked NewsFeed.new l = .error (.undefined (.out_of_bounds 10 10)) := by
  have hsplit : l = l.take 9 ++ l.drop 9 := (List.take_append_drop 9 l).symm
  have hlen1 : (l.take 9).length = 9 := by rw [List.length_take]; omega
  cases hd : l.drop 9 with
  | nil =>
    have : (l.drop 9).length = 0 := by rw [hd]; rfl
    rw [List.length_drop] at this
    omega
  | cons t rest =>
    rw [hd] at hsplit
    have hnd' := hnd
    rw [hsplit, List.map_append, List.map_cons] at hnd'
    have hnd1 : ((l.take 9).map (·.1)).Nodup := (List.nodup_append.mp hnd').1
    have hfresh : t.1 ∉ (l.take 9).map (·.1) := by
      intro hmem
      exact (List.nodup_append.mp hnd').2.2 hmem (List.mem_cons_self _ _)
    obtain ⟨s9, he, _, _, _⟩ :=
      feed_enqueueAll_spec (l.take 9) NewsFeed.new hnd1 (fun t _ => DictHash.has_new t.1)
    obtain ⟨hck, hn, ha, hc, hhas⟩ := enqueueAllChecked_bounded (l.take 9) NewsFeed.new s9 he
      (by rw [hlen1]; decide) (by rw [hlen1]; decide)
    have hn9 : s9.n = 9 := by rw [hn, hlen1]; rfl
    have ha9 : s9.alloc = 10 := by rw [ha]; rfl
    have hc9 : s9.capacity = 10 := by rw [hc]; rfl
    have hf : s9.stories.has t.1 = false := by
      cases hb : s9.stories.has t.1 with
      | false => rfl
      | true =>
        rcases (hhas t.1).mp hb with h1 | h1
        · exact absurd h1 hfresh
        · have h2 : NewsFeed.new.stories.has t.1 = false := DictHash.has_new t.1
          rw [h2] at h1
          exact absurd h1 Bool.false_ne_true
    rw [hsplit, enqueueAllChecked_append _ _ _ _ hck]
    obtain ⟨h, st, w⟩ := t
    simp only [enqueueAllChecked]
    rw [enqueueChecked_full s9 h st w hf (by omega) (by omega), ha9]

theorem abs_grow_alloc (s : NewsFeed) : s.abs.grow.n = s.n ∧ s.abs.grow.alloc = s.grow.alloc := by
  unfold PQHeap.grow grow
  by_cases hc : s.n = s.capacity
  · have hc' : s.abs.n = s.abs.capacity := hc
    rw [if_pos hc, if_pos hc']
    exact ⟨rfl, rfl⟩
  · have hc' : ¬ s.abs.n = s.abs.capacity := hc
    rw [if_neg hc, if_neg hc']
    exact ⟨rfl, rfl⟩

end NewsFeed

theorem PQHeap.sample_heapOrdered : PQHeap.HeapOrdered PQHeap.sample := by
  unfold PQHeap.HeapOrdered
  decide
/-! # Main results -/

/-- C1 (NewsFeed heap-order invariant). In every state reached from a fresh
feed by successful `enqueue` and `dequeue` calls and by `reweight` calls on
headlines currently in the queue, `weight(heap[i/2]) <= weight(heap[i])` for
every `i` with `2 <= i <= n`. -/
theorem NewsFeed.heapOrdered_of_reachable (s : NewsFeed) (hr : NewsFeed.Reachable s) :
    ∀ i, 2 ≤ i → i ≤ s.n → s.weight (s.heap (i / 2)) ≤ s.weight (s.heap i) :=
  (NewsFeed.reachable_inv s hr).1

theorem NewsFeed.heapOrdered_of_reachable_witness :
    NewsFeed.Reachable NewsFeed.abc ∧ NewsFeed.abc.n = 3 ∧
    ∀ i, 2 ≤ i → i ≤ NewsFeed.abc.n →
      NewsFeed.abc.weight (NewsFeed.abc.heap (i / 2)) ≤ NewsFeed.abc.weight (NewsFeed.abc.heap i) :=
  ⟨NewsFeed.abc_reachable, rfl,
    NewsFeed.heapOrdered_of_reachable NewsFeed.abc NewsFeed.abc_reachable⟩

/-- C2 (NewsFeed position-index invariant). In every such reachable state the
headlines of slots `1..n` are pairwise distinct, `locations.get(heap[i]) == i`
for every `i` with `1 <= i <= n`, and so for every headline `k` of the queue
the slot at `locations.get(k)` contains `k`. -/
theorem NewsFeed.positionIndexed_of_reachable (s : NewsFeed) (hr : NewsFeed.Reachable s) :
    (∀ i j, 1 ≤ i → i ≤ s.n → 1 ≤ j → j ≤ s.n → s.heap i = s.heap j → i = j) ∧
    (∀ i, 1 ≤ i → i ≤ s.n → s.locations.get (s.heap i) = i) ∧
    (∀ k, NewsFeed.InQueue s k → s.heap (s.locations.get k) = k) := by
  obtain ⟨hd, hl⟩ := (NewsFeed.reachable_inv s hr).2.1
  refine ⟨hd, hl, ?_⟩
  rintro k ⟨i, h1, hn, rfl⟩
  rw [hl i h1 hn]

theorem NewsFeed.positionIndexed_of_reachable_witness :
    NewsFeed.Reachable (NewsFeed.abc.reweight "B" 1) ∧
    ((∀ i j, 1 ≤ i → i ≤ (NewsFeed.abc.reweight "B" 1).n → 1 ≤ j →
        j ≤ (NewsFeed.abc.reweight "B" 1).n →
        (NewsFeed.abc.reweight "B" 1).heap i = (NewsFeed.abc.reweight "B" 1).heap j → i = j) ∧
     (∀ i, 1 ≤ i → i ≤ (NewsFeed.abc.reweight "B" 1).n →
        (NewsFeed.abc.reweight "B" 1).locations.get ((NewsFeed.abc.reweight "B" 1).heap i) = i) ∧
     (∀ k, NewsFeed.InQueue (NewsFeed.abc.reweight "B" 1) k →
        (NewsFeed.abc.reweight "B" 1).heap ((NewsFeed.abc.reweight "B" 1).locations.get k) = k)) :=
  ⟨NewsFeed.Reachable.reweight _ "B" 1 NewsFeed.abc_reachable NewsFeed.abc_inQueue_B,
    NewsFeed.positionIndexed_of_reachable _
      (NewsFeed.Reachable.reweight _ "B" 1 NewsFeed.abc_reachable NewsFeed.abc_inQueue_B)⟩

/-- C3 (PQHeap heap-order invariant) does not hold of the code on every state.
From a state in heap order, a successful `dequeue()` yields a state in heap
order with `n - 1` slots, and so does `enqueue` with `n + 1` slots whenever its
array accesses are in bounds and its argument does not dangle, which is the
case when the reads of `resize()` and the write of slot `n + 1` are in bounds
and the argument lies outside the buffer. But the copy made by `operator=` of
a sixteen-element queue, itself in bounds, is a state in heap order with
`n == 16`, `capacity == 17` and a buffer of length 17, on which `enqueue(v)`
skips `resize()` and writes `heap[17]`, one past the end of the buffer. -/
theorem PQHeap.heapOrdered_preserved_in_bounds {α : Type} [LinearOrder α] [Inhabited α] :
    (∀ h : PQHeap α, PQHeap.HeapOrdered h →
      (∀ d h', h.enqueueChecked d = .ok h' → h'.n = h.n + 1 ∧ PQHeap.HeapOrdered h') ∧
      (∀ h', h.dequeue = .ok h' → h'.n = h.n - 1 ∧ PQHeap.HeapOrdered h')) ∧
    (∀ (h : PQHeap α) (v : α), (h.n = h.capacity → ∀ i ∈ h.resizeReads, i < h.alloc) →
      h.grow.n + 1 < h.grow.alloc → h.enqueueChecked (.object v) = .ok (h.enqueue v)) ∧
    PQHeap.HeapOrdered (PQHeap.assign PQHeap.sixteen) ∧
    (PQHeap.assign PQHeap.sixteen).n = 16 ∧
    (PQHeap.assign PQHeap.sixteen).capacity = 17 ∧
    (PQHeap.assign PQHeap.sixteen).alloc = 17 ∧
    (∀ i ∈ PQHeap.assignWrites PQHeap.sixteen, i < (PQHeap.assign PQHeap.sixteen).alloc) ∧
    (∀ v : Int, (PQHeap.assign PQHeap.sixteen).enqueueChecked (.object v) =
      .error (.out_of_bounds 17 17)) := by
  refine ⟨?_, PQHeap.enqueueChecked_object, ?_, by decide, by decide, by decide, by decide,
    fun _ => rfl⟩
  · intro h ho
    constructor
    · intro d h' he
      rw [PQHeap.enqueueChecked_ok h h' d he]
      exact ⟨PQHeap.enqueue_n h _, PQHeap.enqueue_heapOrdered h _ ho⟩
    · intro h' hd
      exact ⟨(PQHeap.dequeue_n h h' hd).2, PQHeap.dequeue_heapOrdered h h' hd ho⟩
  · unfold PQHeap.HeapOrdered
    decide

/-- C4 (PQHeap min-extraction order). Enqueuing the elements of any list one at
a time into an empty heap and draining it with `peek(); dequeue()` yields the
ascending sort of the list; `[5,1,4,2,3]` drains as `[1,2,3,4,5]`. -/
theorem PQHeap.drain_sorted {α : Type} [LinearOrder α] [Inhabited α] :
    (∀ xs : List α,
      (PQHeap.enqueueAll PQHeap.new xs).drain = xs.insertionSort (· ≤ ·)) ∧
    (PQHeap.enqueueAll (PQHeap.new : PQHeap Int) [5, 1, 4, 2, 3]).drain = [1, 2, 3, 4, 5] := by
  refine ⟨?_, by decide⟩
  intro xs
  obtain ⟨ho, hp⟩ := PQHeap.enqueueAll_spec xs PQHeap.new PQHeap.new_heapOrdered
  obtain ⟨hs, hp'⟩ := PQHeap.drainLoop_spec _ _ (le_refl _) ho
  rw [PQHeap.elems_nil PQHeap.new rfl, List.append_nil] at hp
  exact List.eq_of_perm_of_sorted ((hp'.trans hp).trans (List.perm_insertionSort _ xs).symm)
    hs (List.sorted_insertionSort _ xs)

/-- C5 (NewsFeed min-extraction order) does not hold of the code for ten or
more stories. Enqueuing at most nine triples with pairwise distinct headlines
into a fresh feed succeeds without undefined behaviour, and draining the feed
with `peek(); dequeue()` returns every enqueued headline exactly once, in
nondecreasing order of staleness, the staleness of each headline being the one
it was enqueued with; staleness values 5, 1, 4, 2, 3 come out as 1, 2, 3, 4, 5.
With ten or more triples the tenth `enqueue` writes `heap[10]` of the buffer
`new Headline[10]` allocated by the constructor. -/
theorem NewsFeed.drain_enqueueAll_bounded :
    (∀ l : List (Headline × Story × Staleness), l.length ≤ 9 → (l.map (·.1)).Nodup →
      ∃ s, NewsFeed.enqueueAllChecked NewsFeed.new l = .ok s ∧ s.drain.Perm (l.map (·.1)) ∧
        (s.drain.map s.weight).Sorted (· ≤ ·) ∧ ∀ t ∈ l, s.weight t.1 = t.2.2) ∧
    NewsFeed.enqueueAllChecked NewsFeed.new NewsFeed.five = .ok NewsFeed.fiveFeed ∧
    NewsFeed.fiveFeed.drain.map NewsFeed.fiveFeed.weight = [1, 2, 3, 4, 5] ∧
    (∀ l : List (Headline × Story × Staleness), 10 ≤ l.length → (l.map (·.1)).Nodup →
      NewsFeed.enqueueAllChecked NewsFeed.new l = .error (.undefined (.out_of_bounds 10 10))) ∧
    (NewsFeed.tenStories.map (·.1)).Nodup ∧
    NewsFeed.enqueueAllChecked NewsFeed.new NewsFeed.tenStories =
      .error (.undefined (.out_of_bounds 10 10)) := by
  refine ⟨?_, rfl, by decide, NewsFeed.enqueueAllChecked_ten, by decide, rfl⟩
  intro l hlen hnd
  obtain ⟨s, he, hk, hw, _⟩ :=
    NewsFeed.feed_enqueueAll_spec l NewsFeed.new hnd (fun t _ => DictHash.has_new t.1)
  have hck := (NewsFeed.enqueueAllChecked_bounded l NewsFeed.new s he
    (by show 0 + l.length < 10; omega) (by show 0 + l.length ≤ 10; omega)).1
  have hinv := NewsFeed.reachable_inv s
    (NewsFeed.reachable_enqueueAll l _ s NewsFeed.Reachable.new he)
  obtain ⟨hp, hs⟩ := NewsFeed.feed_drainLoop_spec s.n s (le_refl _) hinv
  rw [NewsFeed.keys_nil NewsFeed.new rfl, List.append_nil] at hk
  exact ⟨s, hck, hp.trans hk, hs, hw⟩

/-- C6 (PQHeap bulk-build equivalence) does not hold of the code. The copy loop
of the constructor stores `list.get(i)` in `heap[i]` for `i` from
`list.size()-1` down to `0`: the first element lands in the unused slot 0 and
slot `n` keeps its default-constructed value. Built from `[3,1,2]` the queue
drains as `[0,1,2]`, whereas one-at-a-time insertion drains as `[1,2,3]`; a
queue built from a one-element list drains as the default value. -/
theorem PQHeap.ofList_drain_failing :
    (PQHeap.ofList ([3, 1, 2] : List Int)).drain = [0, 1, 2] ∧
    (PQHeap.ofList ([3, 1, 2] : List Int)).heap 0 = 3 ∧
    (PQHeap.enqueueAll PQHeap.new ([3, 1, 2] : List Int)).drain = [1, 2, 3] ∧
    (∀ x : Int, (PQHeap.ofList [x]).drain = [0]) :=
  by
  refine ⟨by decide, by decide, by decide, ?_⟩
  intro x
  simp [PQHeap.ofList, PQHeap.heapifyLoop, PQHeap.drain, PQHeap.drainLoop, PQHeap.empty,
    PQHeap.peek, PQHeap.dequeue, PQHeap.root]

/-- C7 (NewsFeed reweight correctness). For a reachable state, a headline `k`
of the queue and a priority `p`, after `reweight(k, p)`: `weight(k) == p`, the
weight of every other headline is unchanged, the queue holds the same
headlines, `peek()` is a headline of the queue whose weight is at most the
weight of every headline of the queue, and `peek() == k` when `p` is strictly
smaller than the weight of every other headline of the queue. -/
theorem NewsFeed.reweight_correct (s : NewsFeed) (hr : NewsFeed.Reachable s) (k : Headline)
    (hq : NewsFeed.InQueue s k) (p : Staleness) :
    (s.reweight k p).weight k = p ∧
    (∀ k', k' ≠ k → (s.reweight k p).weight k' = s.weight k') ∧
    (∀ k', NewsFeed.InQueue (s.reweight k p) k' ↔ NewsFeed.InQueue s k') ∧
    NewsFeed.InQueue (s.reweight k p) (s.reweight k p).peek ∧
    (∀ k', NewsFeed.InQueue (s.reweight k p) k' →
      (s.reweight k p).weight (s.reweight k p).peek ≤ (s.reweight k p).weight k') ∧
    ((∀ k', NewsFeed.InQueue s k' → k' ≠ k → p < s.weight k') →
      (s.reweight k p).peek = k) := by
  obtain ⟨hinv, hstal, hkeys, hn, _⟩ :=
    NewsFeed.reweight_spec s k p (NewsFeed.reachable_inv s hr) hq
  have hwk : (s.reweight k p).weight k = p := by
    unfold NewsFeed.weight; rw [hstal, DictHash.get_add, if_pos rfl]
  have hwo : ∀ k', k' ≠ k → (s.reweight k p).weight k' = s.weight k' := by
    intro k' hne
    unfold NewsFeed.weight; rw [hstal, DictHash.get_add, if_neg hne]
  have hiff : ∀ k', NewsFeed.InQueue (s.reweight k p) k' ↔ NewsFeed.InQueue s k' := by
    intro k'
    rw [NewsFeed.inQueue_iff_mem_keys, NewsFeed.inQueue_iff_mem_keys]
    exact hkeys.mem_iff
  have hn1 : 1 ≤ s.n := by
    obtain ⟨c, h1, h2, _⟩ := hq
    omega
  have hpk : NewsFeed.InQueue (s.reweight k p) (s.reweight k p).peek :=
    ⟨1, le_refl _, by rw [hn]; exact hn1, rfl⟩
  refine ⟨hwk, hwo, hiff, hpk, fun k' hk' => NewsFeed.peek_min _ hinv k' hk', ?_⟩
  intro hsmall
  by_contra hne
  have h1 := hsmall _ ((hiff _).mp hpk) hne
  have h2 := NewsFeed.peek_min _ hinv k ((hiff k).mpr hq)
  rw [hwk, hwo _ hne] at h2
  exact absurd h1 (not_lt.mpr h2)

theorem NewsFeed.reweight_correct_witness :
    NewsFeed.Reachable NewsFeed.abc ∧ NewsFeed.InQueue NewsFeed.abc "B" ∧
    ((NewsFeed.abc.reweight "B" 1).weight "B" = 1 ∧
    (∀ k', k' ≠ "B" → (NewsFeed.abc.reweight "B" 1).weight k' = NewsFeed.abc.weight k') ∧
    (∀ k', NewsFeed.InQueue (NewsFeed.abc.reweight "B" 1) k' ↔ NewsFeed.InQueue NewsFeed.abc k') ∧
    NewsFeed.InQueue (NewsFeed.abc.reweight "B" 1) (NewsFeed.abc.reweight "B" 1).peek ∧
    (∀ k', NewsFeed.InQueue (NewsFeed.abc.reweight "B" 1) k' →
      (NewsFeed.abc.reweight "B" 1).weight (NewsFeed.abc.reweight "B" 1).peek ≤
        (NewsFeed.abc.reweight "B" 1).weight k') ∧
    ((∀ k', NewsFeed.InQueue NewsFeed.abc k' → k' ≠ "B" → 1 < NewsFeed.abc.weight k') →
      (NewsFeed.abc.reweight "B" 1).peek = "B")) ∧
    (NewsFeed.abc.reweight "B" 1).peek = "B" :=
  ⟨NewsFeed.abc_reachable, NewsFeed.abc_inQueue_B,
    NewsFeed.reweight_correct NewsFeed.abc NewsFeed.abc_reachable "B" NewsFeed.abc_inQueue_B 1,
    by decide⟩

/-- C8, as stated, fails: on the feed holding A(10), B(20), C(30), after
`reweight(B, 1)` the root is B, and after `reweight(C, 100); reweight(C, 5)`
the root is not C. -/
theorem NewsFeed.reweight_scenario_counterexample :
    ¬ (∃ s, NewsFeed.enqueueAll NewsFeed.new [("A", "a", 10), ("B", "b", 20), ("C", "c", 30)]
          = .ok s ∧
        (s.reweight "B" 1).peek = "B" ∧
        (((s.reweight "B" 1).reweight "C" 100).reweight "C" 5).peek = "C") := by
  rintro ⟨s, hs, _, hC⟩
  rw [NewsFeed.abc_eq] at hs
  injection hs with hs
  subst hs
  revert hC
  decide

/-- C8, amended (NewsFeed reweight scenario). On one fresh feed: enqueue A with
priority 10, B with priority 20, C with priority 30; `reweight(B, 1)`; then
`peek() == B`; then `reweight(C, 100); reweight(C, 5)`; then `peek() == B`
still, since the weight of C is 5 and the weight of B is 1. -/
theorem NewsFeed.reweight_scenario :
    ∃ s, NewsFeed.enqueueAll NewsFeed.new [("A", "a", 10), ("B", "b", 20), ("C", "c", 30)]
          = .ok s ∧
      (s.reweight "B" 1).peek = "B" ∧
      (((s.reweight "B" 1).reweight "C" 100).reweight "C" 5).peek = "B" ∧
      (((s.reweight "B" 1).reweight "C" 100).reweight "C" 5).weight "C" = 5 ∧
      (((s.reweight "B" 1).reweight "C" 100).reweight "C" 5).weight "B" = 1 :=
  ⟨NewsFeed.abc, rfl, by decide, by decide, by decide, by decide⟩

/-- C9 (NewsFeed duplicate rejection). In a reachable state, `enqueue` of a
headline that is currently in the queue throws `invalid_argument` for every
story and staleness, and leaves the object (heap array, `n`, `capacity`, and
the three maps) exactly as it was before the call. -/
theorem NewsFeed.enqueue_duplicate (s : NewsFeed) (hr : NewsFeed.Reachable s) (k : Headline)
    (hq : NewsFeed.InQueue s k) (payload : Story) (priority : Staleness) :
    s.enqueue k payload priority =
      .error { exn := .invalid_argument "Headline already in use", state := s } := by
  have hhas := (NewsFeed.reachable_inv s hr).2.2 k hq
  simp [NewsFeed.enqueue, hhas]

theorem NewsFeed.enqueue_duplicate_witness :
    NewsFeed.Reachable NewsFeed.abc ∧ NewsFeed.InQueue NewsFeed.abc "B" ∧
    NewsFeed.abc.enqueue "B" "another story" 7 =
      .error { exn := .invalid_argument "Headline already in use", state := NewsFeed.abc } :=
  ⟨NewsFeed.abc_reachable, NewsFeed.abc_inQueue_B,
    NewsFeed.enqueue_duplicate NewsFeed.abc NewsFeed.abc_reachable "B" NewsFeed.abc_inQueue_B
      "another story" 7⟩

/-- C10, as stated, fails: it is not the case that in every reachable
non-empty state the headline returned by `peek()` can be enqueued again after
`dequeue()`. -/
theorem NewsFeed.reenqueue_counterexample :
    ¬ (∀ s : NewsFeed, NewsFeed.Reachable s → s.n ≠ 0 → ∀ s', s.dequeue = .ok s' →
        ∀ (payload : Story) (priority : Staleness),
          ∃ s'', s'.enqueue s.peek payload priority = .ok s'') := by
  intro h
  obtain ⟨s'', hs''⟩ := h NewsFeed.abc NewsFeed.abc_reachable (by decide) _
    (NewsFeed.feed_dequeue_ok NewsFeed.abc (by decide)) "a" 10
  have herr : (NewsFeed.percolate
      { NewsFeed.abc.swap NewsFeed.root NewsFeed.abc.n with n := NewsFeed.abc.n - 1 }
      NewsFeed.root).enqueue NewsFeed.abc.peek "a" 10 =
      .error { exn := .invalid_argument "Headline already in use",
               state := NewsFeed.percolate
                { NewsFeed.abc.swap NewsFeed.root NewsFeed.abc.n with n := NewsFeed.abc.n - 1 }
                NewsFeed.root } := rfl
  rw [herr] at hs''
  cases hs''

/-- C10, amended (NewsFeed entry lifecycle). In a reachable non-empty state
with `k == peek()`, `dequeue()` succeeds and takes `k` out of the queue, but
`k` stays tracked by the `stories` map, so a subsequent `enqueue(k, story,
staleness)` throws `invalid_argument` and leaves the object as it was. -/
theorem NewsFeed.dequeue_keeps_tracked (s : NewsFeed) (hr : NewsFeed.Reachable s)
    (hn : s.n ≠ 0) :
    ∃ s', s.dequeue = .ok s' ∧ ¬ NewsFeed.InQueue s' s.peek ∧
      s'.stories.has s.peek = true ∧
      ∀ (payload : Story) (priority : Staleness),
        s'.enqueue s.peek payload priority =
          .error { exn := .invalid_argument "Headline already in use", state := s' } := by
  have hinv := NewsFeed.reachable_inv s hr
  have hd := NewsFeed.feed_dequeue_ok s hn
  generalize NewsFeed.percolate { s.swap NewsFeed.root s.n with n := s.n - 1 }
    NewsFeed.root = s' at hd
  obtain ⟨_, _, hperm, _, hstor⟩ := NewsFeed.dequeue_spec s s' hd
  have hhas : s'.stories.has s.peek = true := by
    rw [hstor]
    exact hinv.2.2 _ ⟨1, le_refl _, by omega, rfl⟩
  refine ⟨s', hd, ?_, hhas, ?_⟩
  · rw [NewsFeed.inQueue_iff_mem_keys]
    have hnd := (hperm.nodup_iff).mp (NewsFeed.keys_nodup s hinv.2.1)
    exact (List.nodup_cons.mp hnd).1
  · intro payload priority
    simp [NewsFeed.enqueue, hhas]

theorem NewsFeed.dequeue_keeps_tracked_witness :
    NewsFeed.Reachable NewsFeed.abc ∧ NewsFeed.abc.n ≠ 0 ∧
    ∃ s', NewsFeed.abc.dequeue = .ok s' ∧ ¬ NewsFeed.InQueue s' NewsFeed.abc.peek ∧
      s'.stories.has NewsFeed.abc.peek = true ∧
      ∀ (payload : Story) (priority : Staleness),
        s'.enqueue NewsFeed.abc.peek payload priority =
          .error { exn := .invalid_argument "Headline already in use", state := s' } :=
  ⟨NewsFeed.abc_reachable, by decide,
    NewsFeed.dequeue_keeps_tracked NewsFeed.abc NewsFeed.abc_reachable (by decide)⟩

/-- C11 (NewsFeed empty-queue errors) does not hold of the code for `peek()`.
On a feed with `n == 0`, `dequeue()` throws `invalid_argument` and leaves the
object as it was, but `peek()` has no guard and returns `heap[1]`: the empty
string on a fresh feed, and the headline dequeued last on the feed drained by
`enqueue("A", "a", 10); dequeue()`. -/
theorem NewsFeed.peek_empty_unguarded :
    (∀ s : NewsFeed, s.n = 0 →
      s.dequeue = .error { exn := .invalid_argument "dequeue from empty heap", state := s }) ∧
    NewsFeed.new.n = 0 ∧ NewsFeed.new.peek = "" ∧
    NewsFeed.drained.n = 0 ∧ NewsFeed.drained.peek = "A" := by
  refine ⟨?_, by decide, by decide, by decide, by decide⟩
  intro s hn
  simp [NewsFeed.dequeue, NewsFeed.empty, hn]

/-- C12 (PQHeap empty-queue errors). For every state, `peek()` throws exactly
when `n == 0` and `dequeue()` throws exactly when `n == 0`; a throwing call
leaves the object as it was, and so does a `peek()` that returns. -/
theorem PQHeap.empty_errors {α : Type} [LinearOrder α] (h : PQHeap α) :
    ((∃ e, h.peek = .error e) ↔ h.n = 0) ∧
    ((∃ t, h.peekCall = .error t) ↔ h.n = 0) ∧
    ((∃ t, h.dequeue = .error t) ↔ h.n = 0) ∧
    (∀ t, h.peekCall = .error t → t.state = h) ∧
    (∀ t, h.dequeue = .error t → t.state = h) ∧
    (∀ x h', h.peekCall = .ok (x, h') → h.peek = .ok x ∧ h' = h) := by
  by_cases hn : h.n = 0
  · simp [PQHeap.peek, PQHeap.peekCall, PQHeap.dequeue, PQHeap.empty, hn]
  · simp [PQHeap.peek, PQHeap.peekCall, PQHeap.dequeue, PQHeap.empty, hn]

/-- C13 (PQHeap dequeue removes the minimum). In a non-empty state in heap
order, `peek()` returns an element `m` below every element of slots `1..n`,
and `dequeue()` succeeds with `n` lowered by one and with the elements of
slots `1..n` being the old ones less one occurrence of `m`. -/
theorem PQHeap.dequeue_removes_min {α : Type} [LinearOrder α] (h : PQHeap α)
    (hn : h.n ≠ 0) (ho : PQHeap.HeapOrdered h) :
    ∃ m h', h.peek = .ok m ∧ h.dequeue = .ok h' ∧ (∀ x ∈ h.elems, m ≤ x) ∧
      h'.n = h.n - 1 ∧ h'.elems.Perm (h.elems.erase m) := by
  have hd := PQHeap.dequeue_ok h hn
  refine ⟨h.heap 1, _, by simp [PQHeap.peek, PQHeap.empty, hn, PQHeap.root], hd, ?_,
    (PQHeap.dequeue_n h _ hd).2, ?_⟩
  · intro x hx
    unfold PQHeap.elems at hx
    rw [mem_map_range] at hx
    obtain ⟨i, h1, h2, rfl⟩ := hx
    exact PQHeap.root_le_of_heapOrdered h ho i h1 h2
  · have hp := (PQHeap.dequeue_elems h _ hd).erase (h.heap 1)
    rw [List.erase_cons_head] at hp
    exact hp.symm

theorem PQHeap.dequeue_removes_min_witness :
    PQHeap.sample.n ≠ 0 ∧ PQHeap.HeapOrdered PQHeap.sample ∧
    ∃ m h', PQHeap.sample.peek = .ok m ∧ PQHeap.sample.dequeue = .ok h' ∧
      (∀ x ∈ PQHeap.sample.elems, m ≤ x) ∧
      h'.n = PQHeap.sample.n - 1 ∧ h'.elems.Perm (PQHeap.sample.elems.erase m) :=
  ⟨by decide, PQHeap.sample_heapOrdered,
    PQHeap.dequeue_removes_min PQHeap.sample (by decide) PQHeap.sample_heapOrdered⟩

/-- C14 (NewsFeed payload round trip). After a successful
`enqueue(k, payload, w)`, in whatever state it was made, `get(k)` returns
`payload`, and it still does after any number of later calls: `reweight` on `k`
or on other headlines of the queue, successful `enqueue` of other headlines,
and `dequeue`. -/
theorem NewsFeed.get_roundtrip (s s1 t : NewsFeed) (k : Headline) (payload : Story)
    (w : Staleness) (he : s.enqueue k payload w = .ok s1) (hst : NewsFeed.Steps s1 t) :
    s1.get k = payload ∧ t.get k = payload := by
  obtain ⟨h1, h2⟩ := NewsFeed.enqueue_get s s1 k payload w he
  exact ⟨h2, (NewsFeed.steps_get s1 t hst k payload h1 h2).2⟩

theorem NewsFeed.get_roundtrip_witness :
    NewsFeed.abc.enqueue "D" "d" 40 = .ok (NewsFeed.after (NewsFeed.abc.enqueue "D" "d" 40)) ∧
    NewsFeed.Steps (NewsFeed.after (NewsFeed.abc.enqueue "D" "d" 40))
      (((NewsFeed.after (NewsFeed.abc.enqueue "D" "d" 40)).reweight "D" 1).reweight "B" 50) ∧
    ((NewsFeed.after (NewsFeed.abc.enqueue "D" "d" 40)).get "D" = "d" ∧
      (((NewsFeed.after (NewsFeed.abc.enqueue "D" "d" 40)).reweight "D" 1).reweight "B" 50).get
        "D" = "d") :=
  ⟨rfl,
    NewsFeed.Steps.reweight _ _ "B" 50
      (NewsFeed.Steps.reweight _ _ "D" 1 (NewsFeed.Steps.refl _) ⟨4, by decide, by decide, by decide⟩)
      ⟨4, by decide, by decide, by decide⟩,
    NewsFeed.get_roundtrip NewsFeed.abc _ _ "D" "d" 40 rfl
      (NewsFeed.Steps.reweight _ _ "B" 50
        (NewsFeed.Steps.reweight _ _ "D" 1 (NewsFeed.Steps.refl _)
          ⟨4, by decide, by decide, by decide⟩)
        ⟨4, by decide, by decide, by decide⟩)⟩

/-- C15 (PQHeap growth) does not hold of the code on every state and argument.
Whenever `enqueue` runs without undefined behaviour, `capacity` becomes
`2*capacity + 17` exactly when `n == capacity` beforehand and is unchanged
otherwise, `n` grows by one, and the elements of slots `1..n` are the previous
ones plus the value of the argument. But `enqueue` takes `const T& datum`: on
a queue with `n == capacity == 17`, `q.enqueue(q.peek())` binds `datum` to slot
1 of the buffer that `resize()` deletes before `heap[++n] = datum` reads it.
And on the copy made by `operator=` of a sixteen-element queue, `enqueue(v)`
writes `heap[17]` in a buffer of length 17. -/
theorem PQHeap.enqueue_growth_in_bounds {α : Type} [LinearOrder α] [Inhabited α] :
    (∀ (h : PQHeap α) (d : PQHeap.Datum α) (h' : PQHeap α), h.enqueueChecked d = .ok h' →
      (h.n = h.capacity → h'.capacity = 2 * h.capacity + 17) ∧
      (h.n ≠ h.capacity → h'.capacity = h.capacity) ∧
      (h'.capacity = 2 * h.capacity + 17 ↔ h.n = h.capacity) ∧
      h'.n = h.n + 1 ∧
      h'.elems.Perm (h.datum d :: h.elems)) ∧
    (∀ (h : PQHeap α) (v : α), (h.n = h.capacity → ∀ i ∈ h.resizeReads, i < h.alloc) →
      h.grow.n + 1 < h.grow.alloc → h.enqueueChecked (.object v) = .ok (h.enqueue v)) ∧
    PQHeap.seventeen.n = 17 ∧ PQHeap.seventeen.capacity = 17 ∧
    PQHeap.seventeen.alloc = 18 ∧
    PQHeap.seventeen.peek = .ok (PQHeap.seventeen.heap 1) ∧
    PQHeap.seventeen.enqueueChecked (.slot 1) = .error .dangling_reference ∧
    (PQHeap.assign PQHeap.sixteen).n = 16 ∧
    (PQHeap.assign PQHeap.sixteen).capacity = 17 ∧
    (PQHeap.assign PQHeap.sixteen).alloc = 17 ∧
    (∀ v : Int, (PQHeap.assign PQHeap.sixteen).enqueueChecked (.object v) =
      .error (.out_of_bounds 17 17)) := by
  refine ⟨?_, PQHeap.enqueueChecked_object, by decide, by decide, by decide, rfl, rfl,
    by decide, by decide, by decide, fun _ => rfl⟩
  intro h d h' he
  rw [PQHeap.enqueueChecked_ok h h' d he]
  have hc := PQHeap.enqueue_capacity h (h.datum d)
  refine ⟨fun hq => by rw [hc, if_pos hq], fun hq => by rw [hc, if_neg hq], ?_,
    PQHeap.enqueue_n h _, PQHeap.enqueue_elems h _⟩
  rw [hc]
  split_ifs with hq
  · exact ⟨fun _ => hq, fun _ => rfl⟩
  · exact ⟨fun h1 => by omega, fun h1 => absurd h1 hq⟩

/-- C16 (PQHeap heapify establishes heap order). For every list, the empty
list and singletons included, the state built by `PQHeap(list)` has
`n == list.size()` and satisfies `heap[i/2] <= heap[i]` for every `i` with
`2 <= i <= n`; the bottom-up loop is a total function of its start index. -/
theorem PQHeap.ofList_heapOrdered {α : Type} [LinearOrder α] [Inhabited α] (list : List α) :
    (PQHeap.ofList list).n = list.length ∧
    ∀ i, 2 ≤ i → i ≤ (PQHeap.ofList list).n →
      (PQHeap.ofList list).heap (i / 2) ≤ (PQHeap.ofList list).heap i :=
  PQHeap.ofList_n list

/-- C17 (NewsFeed refines PQHeap over priorities) does not hold of the code in
every reachable state. For a reachable state `s` with priority abstraction
`s.abs`: whenever `enqueue` of a headline with priority `p` returns, which it
does for a fresh headline when its array accesses are in bounds,
`PQHeap::enqueue(p)` returns on `s.abs` and the results hold the same queue;
when `s` is non-empty, `dequeue` succeeds, so does `PQHeap::dequeue` on
`s.abs`, and the results hold the same queue. But on the feed reached by nine
`enqueue` calls the tenth `enqueue` writes `heap[10]` of the buffer
`new Headline[10]`, while a default-constructed `PQHeap<int>` holding the same
nine priorities enqueues a tenth one in bounds. -/
theorem NewsFeed.abs_refines_in_bounds :
    (∀ s : NewsFeed, NewsFeed.Reachable s →
      (∀ (k : Headline) (st : Story) (p : Staleness) (s' : NewsFeed),
        s.enqueueChecked k st p = .ok s' →
        ∃ q, s.abs.enqueueChecked (.object p) = .ok q ∧ PQHeap.SameQueue s'.abs q) ∧
      (s.n ≠ 0 →
        ∃ s' q, s.dequeue = .ok s' ∧ s.abs.dequeue = .ok q ∧ PQHeap.SameQueue s'.abs q)) ∧
    (∀ (s : NewsFeed) (k : Headline) (st : Story) (p : Staleness),
      s.stories.has k = false → NewsFeed.EnqueueInBounds s →
      ∃ s', s.enqueueChecked k st p = .ok s') ∧
    NewsFeed.Reachable NewsFeed.nine ∧
    NewsFeed.nine.stories.has "h10" = false ∧
    NewsFeed.nine.enqueueChecked "h10" "" 10 = .error (.undefined (.out_of_bounds 10 10)) ∧
    PQHeap.SameQueue NewsFeed.nine.abs NewsFeed.ninePriorities ∧
    NewsFeed.ninePriorities.enqueueChecked (.object 10) =
      .ok (NewsFeed.ninePriorities.enqueue 10) := by
  refine ⟨?_, ?_, NewsFeed.nine_reachable, by decide, rfl, ?_, rfl⟩
  · intro s hr
    have hinv := NewsFeed.reachable_inv s hr
    constructor
    · intro k st p s' hck
      obtain ⟨he, hb⟩ := NewsFeed.feed_enqueueChecked_ok s s' k st p hck
      obtain ⟨g1, g2⟩ := NewsFeed.abs_grow_alloc s
      refine ⟨s.abs.enqueue p, ?_, NewsFeed.enqueue_abs s s' k st p hinv he⟩
      apply PQHeap.enqueueChecked_object
      · exact hb.1
      · rw [g1, g2]; exact hb.2
    · intro hn
      have hd := NewsFeed.feed_dequeue_ok s hn
      exact ⟨_, _, hd, NewsFeed.dequeue_abs s _ hd, rfl, fun _ _ _ => rfl⟩
  · intro s k st p hf hb
    obtain ⟨s', he⟩ := NewsFeed.enqueue_fresh s k st p hf
    exact ⟨s', NewsFeed.enqueueChecked_of_inBounds s s' k st p he hb⟩
  · unfold PQHeap.SameQueue
    decide

/-- C18 (PQHeap copy preserves contents) does not hold of the code for the
bounds. In flat memory the destination of `operator=` has the `n` of the
source and its element in each of the slots `1..n`; but its buffer is
`new T[capacity]`, so the slots `1..n` written by the copy loop lie inside it
only when `n == 0` or `n < capacity`. From the one-element queue built by
`PQHeap(list)`, with `n == capacity == 1`, the loop writes slot 1 of a buffer
of length 1. -/
theorem PQHeap.assign_out_of_bounds :
    (∀ other : PQHeap Int, (PQHeap.assign other).n = other.n ∧
      ∀ i, 1 ≤ i → i ≤ other.n → (PQHeap.assign other).heap i = other.heap i) ∧
    (∀ other : PQHeap Int,
      (∀ i ∈ PQHeap.assignWrites other, i < (PQHeap.assign other).alloc) ↔
        (other.n = 0 ∨ other.n < other.capacity)) ∧
    (PQHeap.ofList ([7] : List Int)).n = 1 ∧
    (PQHeap.ofList ([7] : List Int)).capacity = 1 ∧
    (PQHeap.assign (PQHeap.ofList ([7] : List Int))).alloc = 1 ∧
    1 ∈ PQHeap.assignWrites (PQHeap.ofList ([7] : List Int)) ∧
    ¬ (∀ i ∈ PQHeap.assignWrites (PQHeap.ofList ([7] : List Int)),
        i < (PQHeap.assign (PQHeap.ofList ([7] : List Int))).alloc) := by
  refine ⟨?_, ?_, by decide, by decide, by decide, by decide, by decide⟩
  · intro other
    refine ⟨rfl, ?_⟩
    intro i h1 hn
    simp [PQHeap.assign, h1, hn]
  · intro other
    simp only [PQHeap.assignWrites, PQHeap.assign, List.mem_range'_1]
    constructor
    · intro h
      by_cases hn : other.n = 0
      · exact Or.inl hn
      · exact Or.inr (h other.n ⟨by omega, by omega⟩)
    · rintro (h | h) i ⟨h1, h2⟩ <;> omega

/-- C19 (NewsFeed array bounds) does not hold of the code. The constructor
allocates `new Headline[capacity]` with `capacity == 10`, a buffer of length
10. After nine successful `enqueue` calls on a fresh feed, `n == 9` and no
`resize()` has run; a tenth `enqueue` of a fresh headline passes the guard,
skips `resize()` since `n != capacity`, and writes `heap[10]`, one past the end
of the buffer. -/
theorem NewsFeed.enqueue_out_of_bounds :
    NewsFeed.Reachable NewsFeed.nine ∧
    NewsFeed.nine.n = 9 ∧ NewsFeed.nine.capacity = 10 ∧ NewsFeed.nine.alloc = 10 ∧
    NewsFeed.nine.stories.has "h10" = false ∧
    NewsFeed.nine.grow.alloc = 10 ∧
    ¬ NewsFeed.EnqueueInBounds NewsFeed.nine := by
  refine ⟨NewsFeed.nine_reachable, by decide, by decide, by decide, by decide, by decide, ?_⟩
  unfold NewsFeed.EnqueueInBounds
  decide

/-- C20 (NewsFeed reweight does not change queue membership) does not hold of
the code. After `enqueue("A", "a", 10); enqueue("B", "b", 20); dequeue()` the
queue holds B alone, while A is still tracked with the stale location 2.
`reweight("A", 1)` bubbles slot 2, which lies beyond `n`, into the root: `n` is
unchanged, but the queue now holds A instead of B and `peek()` returns the
headline A that was already dequeued. -/
theorem NewsFeed.reweight_resurrects :
    NewsFeed.Reachable NewsFeed.abDequeued ∧
    NewsFeed.abDequeued.stories.has "A" = true ∧
    NewsFeed.abDequeued.n = 1 ∧
    NewsFeed.abDequeued.keys = ["B"] ∧
    NewsFeed.abDequeued.locations.get "A" = 2 ∧
    (NewsFeed.abDequeued.reweight "A" 1).n = 1 ∧
    (NewsFeed.abDequeued.reweight "A" 1).keys = ["A"] ∧
    (NewsFeed.abDequeued.reweight "A" 1).peek = "A" :=
  ⟨NewsFeed.abDequeued_reachable, by decide, by decide, by decide, by decide, by decide,
    by decide, by decide⟩
